import Mathlib

/-!
# Verification of the Fabric deployment engine's dependency, rewrite and
# reconciliation logic

This file shallowly embeds the pure decision logic of
`src/Deploy/Common/workspace_item_utilities.py` and
`src/Deploy/Common/deployment_main.py` in Lean 4 and proves the spec's
claims about it.

Modelling conventions:
* Python `dict`s (which preserve insertion order) are modelled as
  association lists `List (κ × α)` with first-match lookup and
  insertion-order-preserving update (`listGet`, `listSet`).
* Python strings that are scanned character by character are modelled as
  `List Char`.
* HTTP calls are modelled by injecting their observable outcome (status
  code, returned id, lookup result) as explicit parameters; the control
  flow around those outcomes is translated from the source.
* Python exceptions are modelled with `Except String`.
-/

namespace Spec2Proof

/-! ## Association-list model of Python dicts -/

/-- First-match lookup, as Python `d[k]` / `d.get(k)`. -/
def listGet {κ α : Type} [BEq κ] : List (κ × α) → κ → Option α
  | [], _ => none
  | p :: t, k => if p.1 == k then some p.2 else listGet t k

/-- Membership test, as Python `k in d`. -/
def listHas {κ α : Type} [BEq κ] : List (κ × α) → κ → Bool
  | [], _ => false
  | p :: t, k => p.1 == k || listHas t k

/-- Update-or-append, as Python `d[k] = v`: an existing key keeps its
insertion position, a new key is appended at the end. -/
def listSet {κ α : Type} [BEq κ] (m : List (κ × α)) (k : κ) (v : α) : List (κ × α) :=
  if listHas m k then m.map (fun p => if p.1 == k then (k, v) else p) else m ++ [(k, v)]

section AListLemmas

set_option linter.unusedSectionVars false

variable {κ α : Type} [BEq κ] [LawfulBEq κ]

@[simp] theorem listGet_nil (k : κ) : listGet ([] : List (κ × α)) k = none := rfl

theorem listGet_cons (p : κ × α) (t : List (κ × α)) (k : κ) :
    listGet (p :: t) k = if p.1 == k then some p.2 else listGet t k := rfl

@[simp] theorem listHas_nil (k : κ) : listHas ([] : List (κ × α)) k = false := rfl

theorem listHas_cons (p : κ × α) (t : List (κ × α)) (k : κ) :
    listHas (p :: t) k = (p.1 == k || listHas t k) := rfl

theorem listHas_iff (m : List (κ × α)) (k : κ) :
    listHas m k = true ↔ k ∈ m.map Prod.fst := by
  induction m with
  | nil => simp
  | cons p t ih =>
    rw [listHas_cons, Bool.or_eq_true_iff, ih, List.map_cons, List.mem_cons, beq_iff_eq]
    constructor
    · rintro (h | h)
      · exact Or.inl h.symm
      · exact Or.inr h
    · rintro (h | h)
      · exact Or.inl h.symm
      · exact Or.inr h

theorem listHas_append (m1 m2 : List (κ × α)) (k : κ) :
    listHas (m1 ++ m2) k = (listHas m1 k || listHas m2 k) := by
  induction m1 with
  | nil => simp
  | cons p t ih => simp [listHas_cons, ih, Bool.or_assoc]

theorem listGet_eq_none (m : List (κ × α)) (k : κ)
    (h : listHas m k = false) : listGet m k = none := by
  induction m with
  | nil => rfl
  | cons p t ih =>
    rw [listHas_cons] at h
    rcases Bool.or_eq_false_iff.mp h with ⟨h1, h2⟩
    rw [listGet_cons, if_neg (by simp [h1]), ih h2]

theorem listGet_isSome_of_has (m : List (κ × α)) (k : κ)
    (h : listHas m k = true) : ∃ v, listGet m k = some v := by
  induction m with
  | nil => simp at h
  | cons p t ih =>
    by_cases hp : (p.1 == k) = true
    · exact ⟨p.2, by rw [listGet_cons, if_pos hp]⟩
    · rw [listHas_cons] at h
      rcases Bool.or_eq_true_iff.mp h with h1 | h2
      · exact absurd h1 hp
      · obtain ⟨v, hv⟩ := ih h2
        exact ⟨v, by rw [listGet_cons, if_neg hp, hv]⟩

theorem listGet_append_of_not_has (m1 m2 : List (κ × α)) (k : κ)
    (h : listHas m1 k = false) : listGet (m1 ++ m2) k = listGet m2 k := by
  induction m1 with
  | nil => rfl
  | cons p t ih =>
    rw [listHas_cons] at h
    rcases Bool.or_eq_false_iff.mp h with ⟨h1, h2⟩
    rw [List.cons_append, listGet_cons, if_neg (by simp [h1]), ih h2]

theorem listGet_append_of_has (m1 m2 : List (κ × α)) (k : κ)
    (h : listHas m1 k = true) : listGet (m1 ++ m2) k = listGet m1 k := by
  induction m1 with
  | nil => simp at h
  | cons p t ih =>
    by_cases hp : (p.1 == k) = true
    · rw [List.cons_append, listGet_cons, listGet_cons, if_pos hp, if_pos hp]
    · rw [listHas_cons] at h
      rcases Bool.or_eq_true_iff.mp h with h1 | h2
      · exact absurd h1 hp
      · rw [List.cons_append, listGet_cons, listGet_cons, if_neg hp, if_neg hp, ih h2]

/-- `listGet` after the in-place update of `listSet` on an existing key. -/
theorem listGet_map_update_self (m : List (κ × α)) (k : κ) (v : α)
    (h : listHas m k = true) :
    listGet (m.map (fun p => if p.1 == k then (k, v) else p)) k = some v := by
  induction m with
  | nil => simp at h
  | cons p t ih =>
    by_cases hp : (p.1 == k) = true
    · simp only [List.map_cons, if_pos hp]
      rw [listGet_cons, if_pos (by simp)]
    · rw [listHas_cons] at h
      rcases Bool.or_eq_true_iff.mp h with h1 | h2
      · exact absurd h1 hp
      · simp only [List.map_cons, if_neg hp]
        rw [listGet_cons, if_neg hp, ih h2]

theorem listGet_map_update_ne (m : List (κ × α)) (k k' : κ) (v : α)
    (h : k' ≠ k) :
    listGet (m.map (fun p => if p.1 == k then (k, v) else p)) k' = listGet m k' := by
  induction m with
  | nil => rfl
  | cons p t ih =>
    by_cases hp : (p.1 == k) = true
    · have hk : (k == k') = false := by
        simp only [beq_eq_false_iff_ne, ne_eq]
        exact fun hc => h hc.symm
      have hp' : (p.1 == k') = false := by
        simp only [beq_eq_false_iff_ne, ne_eq]
        rw [eq_of_beq hp]
        exact fun hc => h hc.symm
      simp only [List.map_cons, if_pos hp]
      rw [listGet_cons, listGet_cons, if_neg (by simp [hk]), if_neg (by simp [hp']), ih]
    · simp only [List.map_cons, if_neg hp]
      rw [listGet_cons, listGet_cons]
      by_cases hp' : (p.1 == k') = true
      · rw [if_pos hp', if_pos hp']
      · rw [if_neg hp', if_neg hp', ih]

theorem listGet_listSet_self (m : List (κ × α)) (k : κ) (v : α) :
    listGet (listSet m k v) k = some v := by
  by_cases h : listHas m k
  · simp only [listSet]
    rw [if_pos h]
    exact listGet_map_update_self m k v h
  · simp only [listSet]
    rw [if_neg h, listGet_append_of_not_has _ _ _ (by simpa using h)]
    simp [listGet_cons]

theorem listGet_listSet_ne (m : List (κ × α)) (k k' : κ) (v : α)
    (h : k' ≠ k) : listGet (listSet m k v) k' = listGet m k' := by
  by_cases hm : listHas m k
  · simp only [listSet]
    rw [if_pos hm]
    exact listGet_map_update_ne m k k' v h
  · simp only [listSet]
    rw [if_neg hm]
    by_cases hm' : listHas m k'
    · exact listGet_append_of_has _ _ _ hm'
    · rw [listGet_append_of_not_has _ _ _ (by simpa using hm')]
      have hk : (k == k') = false := by
        simp only [beq_eq_false_iff_ne, ne_eq]
        exact fun hc => h hc.symm
      rw [listGet_eq_none m k' (by simpa using hm')]
      simp [listGet_cons, hk]

theorem listSet_keys (m : List (κ × α)) (k : κ) (v : α) :
    (listSet m k v).map Prod.fst =
      if listHas m k then m.map Prod.fst else m.map Prod.fst ++ [k] := by
  by_cases h : listHas m k
  · rw [if_pos h]
    simp only [listSet]
    rw [if_pos h, List.map_map]
    have hpt : ∀ p : κ × α,
        (Prod.fst ∘ fun p => if p.1 == k then (k, v) else p) p = Prod.fst p := by
      intro p
      by_cases hp : (p.1 == k) = true
      · simp [hp, eq_of_beq hp]
      · simp [hp]
    rw [List.map_congr_left (fun p _ => hpt p)]
  · rw [if_neg h]
    simp only [listSet]
    rw [if_neg h, List.map_append]
    rfl

theorem listSet_has_keys (m : List (κ × α)) (k : κ) (v : α)
    (h : listHas m k = true) : (listSet m k v).map Prod.fst = m.map Prod.fst := by
  rw [listSet_keys, if_pos h]

end AListLemmas

/-! ## The pipeline dependency sorter

`sort_datapipelines` (`workspace_item_utilities.py:1220-1306`).  The
source function receives the per-pipeline definition dictionaries and
resolves their referenced pipelines through
`find_referenced_datapipelines`; the embedding takes as input the
association list from pipeline display name to its resolved
referenced-pipeline list (duplicates allowed, as in the source), which is
the data the graph construction actually consumes. -/

inductive LookupType | Repository | Deployed
deriving DecidableEq

/-- Adjacency lists (`graph` in the source, a `defaultdict(list)` from a
referenced pipeline to its referrers). -/
abbrev Graph := List (String × List String)

/-- In-degree counts (`in_degree` in the source, a `defaultdict(int)`).
Degrees are `Int` because Python integers may be decremented below 0. -/
abbrev Degs := List (String × Int)

/-- Read an adjacency list, as `graph[x]` on a `defaultdict(list)`. -/
def adj (g : Graph) (x : String) : List String := (listGet g x).getD []

/-- `graph[referenced_name].append(item_name)`. -/
def addEdge (item : String) (g : Graph) (r : String) : Graph :=
  listSet g r ((adj g r) ++ [item])

/-- `in_degree[item_name] += 1` on a `defaultdict(int)`. -/
def bumpDeg (item : String) (d : Degs) : Degs :=
  listSet d item (((listGet d item).getD 0) + 1)

/-- One iteration of the graph-building loop of step 2
(`workspace_item_utilities.py:1243-1265`): walk the entry's referenced
pipelines, then `if item_name not in in_degree: in_degree[item_name] = 0`. -/
def buildStep (st : Graph × Degs) (entry : String × List String) : Graph × Degs :=
  let st2 := entry.2.foldl (fun st r => (addEdge entry.1 st.1 r, bumpDeg entry.1 st.2)) st
  (st2.1, if listHas st2.2 entry.1 then st2.2 else st2.2 ++ [(entry.1, 0)])

/-- The dict-builds of step 2 (`graph`, `in_degree`). -/
def buildGraph (pipes : List (String × List String)) : Graph × Degs :=
  pipes.foldl buildStep ([], [])

/-- The `Deployed`-mode in-degree back-fill loop
(`workspace_item_utilities.py:1271-1280`).  A node found only in `graph`
gets degree 0; a neighbor missing from `in_degree` gets `+= 1` (which on
a Python `defaultdict(int)` inserts it with value 1). -/
def backfill (g : Graph) (d0 : Degs) : Degs :=
  g.foldl
    (fun d p =>
      let d1 := if listHas d p.1 then d else d ++ [(p.1, 0)]
      p.2.foldl
        (fun d n => if listHas d n then d else listSet d n (((listGet d n).getD 0) + 1))
        d1)
    d0

/-- `in_degree[neighbor] -= 1; if in_degree[neighbor] == 0:
queue.append(neighbor)` (`workspace_item_utilities.py:1290-1293`). -/
def decStep (st : Degs × List String) (t : String) : Degs × List String :=
  let d2 := listSet st.1 t (((listGet st.1 t).getD 0) - 1)
  if (listGet d2 t).getD 0 == 0 then (d2, st.2 ++ [t]) else (d2, st.2)

/-- The Kahn work loop (`workspace_item_utilities.py:1286-1293`), with
explicit fuel.  The fuel is set by the caller to the number of graph
nodes, which bounds the number of pops (each pop emits a distinct
node), so the fueled loop computes exactly what the source's `while`
loop does. -/
def kahnLoop (g : Graph) : Nat → List String → Degs → List String → List String × Degs
  | 0, _, d, s => (s, d)
  | _ + 1, [], d, s => (s, d)
  | fuel + 1, x :: q, d, s =>
    let st := (adj g x).foldl decStep (d, q)
    kahnLoop g fuel st.2 st.1 (s ++ [x])

/-- The cycle message raised by the source (a `ValueError` wrapped into
the function's `RuntimeError`). -/
def cycleMsg : String :=
  "Error in sorting datapipelines: There is a cycle in the graph. Cannot determine a valid publish order."

/-- `sort_datapipelines` (`workspace_item_utilities.py:1220-1306`). -/
def sort_datapipelines (pipes : List (String × List String)) (lookup : LookupType) :
    Except String (List String) :=
  let st := buildGraph pipes
  let d := match lookup with
    | .Deployed => backfill st.1 st.2
    | .Repository => st.2
  let q := (d.filter (fun p => p.2 == 0)).map Prod.fst
  let r := kahnLoop st.1 d.length q d []
  if r.1.length ≠ d.length then .error cycleMsg
  else match lookup with
    | .Repository => .ok r.1
    | .Deployed => .ok ((r.1.filter (fun n => pipes.any (fun p => p.1 == n))).reverse)

/-- Display names in catalog order (the keys of the source's
`unsorted_pipeline_dict`). -/
def pipeKeys (pipes : List (String × List String)) : List String := pipes.map Prod.fst

/-- The referenced-pipeline list of `t` (empty for unknown names), i.e.
the resolved output of `find_referenced_datapipelines` for `t`. -/
def refsOf (pipes : List (String × List String)) (t : String) : List String :=
  (listGet pipes t).getD []

/-- Every reference points at a pipeline of the catalog.  This holds for
the source's inputs because `find_referenced_datapipelines` resolves a
reference through the same catalog (`convert_id_to_name`) and drops
unresolved ones. -/
def closedRefs (pipes : List (String × List String)) : Bool :=
  pipes.all (fun p => p.2.all (fun r => (pipeKeys pipes).contains r))

/-- Acyclicity of the reference graph, phrased as the existence of a rank
function increasing along every edge referenced→referrer. -/
def Acyclic (pipes : List (String × List String)) : Prop :=
  ∃ f : String → Nat, ∀ r t, r ∈ refsOf pipes t → f r < f t

/-- `a` occurs at a strictly earlier position than `b` in `l`. -/
def Before (l : List α) (a b : α) : Prop :=
  ∃ i j, i < j ∧ l.get? i = some a ∧ l.get? j = some b

/-! ## Further association-list facts -/

section MoreAList

set_option linter.unusedSectionVars false

variable {κ α : Type} [BEq κ] [LawfulBEq κ]

theorem listGet_mem {m : List (κ × α)} {k : κ} {v : α}
    (h : listGet m k = some v) : (k, v) ∈ m := by
  induction m with
  | nil => simp at h
  | cons p t ih =>
    rw [listGet_cons] at h
    by_cases hp : (p.1 == k) = true
    · rw [if_pos hp] at h
      have hv : p.2 = v := by injection h
      have hk : p.1 = k := eq_of_beq hp
      have hpe : p = (k, v) := by
        cases p
        simp_all
      rw [← hpe]
      exact List.mem_cons_self _ _
    · rw [if_neg hp] at h
      exact List.mem_cons_of_mem _ (ih h)

theorem mem_listGet_of_nodup {m : List (κ × α)} {k : κ} {v : α}
    (hnd : (m.map Prod.fst).Nodup) (h : (k, v) ∈ m) : listGet m k = some v := by
  induction m with
  | nil => simp at h
  | cons p t ih =>
    rw [List.map_cons, List.nodup_cons] at hnd
    rcases List.mem_cons.mp h with h1 | h2
    · rw [listGet_cons, ← h1, if_pos (by simp)]
    · have hk : p.1 ≠ k := by
        intro he
        exact hnd.1 (by
          rw [he]
          exact List.mem_map.mpr ⟨(k, v), h2, rfl⟩)
      rw [listGet_cons, if_neg (by simp [hk]), ih hnd.2 h2]

theorem listHas_listSet_self (m : List (κ × α)) (k : κ) (v : α) :
    listHas (listSet m k v) k = true := by
  rw [listHas_iff, listSet_keys]
  by_cases h : listHas m k
  · rw [if_pos h]
    exact (listHas_iff m k).mp h
  · rw [if_neg h]
    simp

theorem listSet_mem {m : List (κ × α)} {k : κ} {v : α} {q : κ × α}
    (h : q ∈ listSet m k v) : q ∈ m ∨ q = (k, v) := by
  by_cases hm : listHas m k
  · simp only [listSet] at h
    rw [if_pos hm] at h
    obtain ⟨p, hp, he⟩ := List.mem_map.mp h
    by_cases hk : (p.1 == k) = true
    · rw [if_pos hk] at he
      exact Or.inr he.symm
    · rw [if_neg hk] at he
      exact Or.inl (he ▸ hp)
  · simp only [listSet] at h
    rw [if_neg hm] at h
    rcases List.mem_append.mp h with h1 | h2
    · exact Or.inl h1
    · exact Or.inr (by simpa using h2)

end MoreAList

/-! ## Properties of the graph build -/

/-- `n` successive `in_degree[item] += 1` updates. -/
def bumpN (item : String) : Nat → Degs → Degs
  | 0, d => d
  | n + 1, d => bumpN item n (bumpDeg item d)

/-- `graph[r].append(item)` for each `r` in `rs`, in order. -/
def addEdges (item : String) (g : Graph) (rs : List String) : Graph :=
  rs.foldl (addEdge item) g

theorem inner_fold_eq (item : String) (rs : List String) (g : Graph) (d : Degs) :
    rs.foldl (fun st r => (addEdge item st.1 r, bumpDeg item st.2)) (g, d)
      = (addEdges item g rs, bumpN item rs.length d) := by
  induction rs generalizing g d with
  | nil => rfl
  | cons r rest ih =>
    show rest.foldl _ (addEdge item g r, bumpDeg item d) = _
    rw [ih]
    rfl

theorem buildStep_eq (st : Graph × Degs) (entry : String × List String) :
    buildStep st entry =
      (addEdges entry.1 st.1 entry.2,
       let d2 := bumpN entry.1 entry.2.length st.2
       if listHas d2 entry.1 then d2 else d2 ++ [(entry.1, 0)]) := by
  obtain ⟨g, d⟩ := st
  simp only [buildStep, inner_fold_eq]

theorem bumpDeg_get_self (item : String) (d : Degs) :
    listGet (bumpDeg item d) item = some (((listGet d item).getD 0) + 1) :=
  listGet_listSet_self d item _

theorem bumpDeg_get_ne (item k : String) (d : Degs) (h : k ≠ item) :
    listGet (bumpDeg item d) k = listGet d k :=
  listGet_listSet_ne d item k _ h

theorem bumpDeg_keys (item : String) (d : Degs) :
    (bumpDeg item d).map Prod.fst =
      if listHas d item then d.map Prod.fst else d.map Prod.fst ++ [item] :=
  listSet_keys d item _

theorem bumpN_get_self (item : String) (n : Nat) (d : Degs) :
    listGet (bumpN item n d) item =
      if n = 0 then listGet d item else some (((listGet d item).getD 0) + n) := by
  induction n generalizing d with
  | zero => simp [bumpN]
  | succ n ih =>
    show listGet (bumpN item n (bumpDeg item d)) item = _
    rw [ih]
    by_cases hn : n = 0
    · subst hn
      rw [if_pos rfl, if_neg (by omega), bumpDeg_get_self]
      simp
    · rw [if_neg hn, if_neg (by omega), bumpDeg_get_self]
      simp only [Option.getD_some]
      congr 1
      push_cast
      ring

theorem bumpN_get_ne (item k : String) (n : Nat) (d : Degs) (h : k ≠ item) :
    listGet (bumpN item n d) k = listGet d k := by
  induction n generalizing d with
  | zero => rfl
  | succ n ih =>
    show listGet (bumpN item n (bumpDeg item d)) k = _
    rw [ih, bumpDeg_get_ne _ _ _ h]

theorem bumpN_keys (item : String) (n : Nat) (d : Degs) :
    (bumpN item n d).map Prod.fst =
      if n = 0 ∨ listHas d item then d.map Prod.fst else d.map Prod.fst ++ [item] := by
  induction n generalizing d with
  | zero => simp [bumpN]
  | succ n ih =>
    show (bumpN item n (bumpDeg item d)).map Prod.fst = _
    rw [ih]
    have hb : listHas (bumpDeg item d) item = true := listHas_listSet_self d item _
    by_cases hd : listHas d item
    · rw [if_pos (Or.inr hb), bumpDeg_keys, if_pos hd, if_pos (Or.inr hd)]
    · rw [if_pos (Or.inr hb), bumpDeg_keys, if_neg hd,
        if_neg (by simp [hd])]

theorem adj_addEdge_self (item : String) (g : Graph) (r : String) :
    adj (addEdge item g r) r = adj g r ++ [item] := by
  simp only [adj, addEdge]
  rw [listGet_listSet_self]
  rfl

theorem adj_addEdge_ne (item : String) (g : Graph) (r x : String) (h : x ≠ r) :
    adj (addEdge item g r) x = adj g x := by
  simp only [adj, addEdge]
  rw [listGet_listSet_ne _ _ _ _ h]

theorem addEdges_adj_count (item : String) (rs : List String) (g : Graph) (x t : String) :
    (adj (addEdges item g rs) x).count t
      = (adj g x).count t + (if t = item then rs.count x else 0) := by
  induction rs generalizing g with
  | nil => simp [addEdges]
  | cons r rest ih =>
    show (adj (addEdges item (addEdge item g r) rest) x).count t = _
    rw [ih]
    by_cases hx : x = r
    · rw [hx, adj_addEdge_self, List.count_append]
      have hcx : (r :: rest).count r = rest.count r + 1 := by
        rw [List.count_cons]
        simp
      by_cases ht : t = item
      · rw [ht]
        have h1 : List.count item [item] = 1 := by
          rw [List.count_cons, List.count_nil]
          simp
        rw [h1, if_pos rfl, if_pos rfl, hcx]
        omega
      · have h0 : List.count t [item] = 0 := by
          rw [List.count_cons, List.count_nil]
          have hne : (item == t) = false := by
            simp only [beq_eq_false_iff_ne, ne_eq]
            exact fun hc => ht hc.symm
          rw [hne]
          simp
        rw [h0, if_neg ht, if_neg ht]
    · rw [adj_addEdge_ne _ _ _ _ hx]
      have hcx : (r :: rest).count x = rest.count x := by
        rw [List.count_cons]
        have hne : (r == x) = false := by
          simp only [beq_eq_false_iff_ne, ne_eq]
          exact fun hc => hx hc.symm
        rw [hne]
        simp
      rw [hcx]

theorem addEdges_entry (item : String) (rs : List String) (g : Graph) :
    ∀ p ∈ addEdges item g rs,
      (∀ u ∈ p.2, (∃ p0 ∈ g, u ∈ p0.2) ∨ u = item) ∧
      (p.1 ∈ g.map Prod.fst ∨ p.1 ∈ rs) := by
  induction rs generalizing g with
  | nil =>
    intro p hp
    refine ⟨fun u hu => Or.inl ⟨p, hp, hu⟩, Or.inl ?_⟩
    exact List.mem_map.mpr ⟨p, hp, rfl⟩
  | cons r rest ih =>
    intro p hp
    have hp' : p ∈ addEdges item (addEdge item g r) rest := hp
    obtain ⟨h1, h2⟩ := ih (addEdge item g r) p hp'
    constructor
    · intro u hu
      rcases h1 u hu with ⟨p0, hp0, hu0⟩ | he
      · rcases listSet_mem hp0 with hin | heq
        · exact Or.inl ⟨p0, hin, hu0⟩
        · subst heq
          simp only at hu0
          rcases List.mem_append.mp hu0 with hadj | hitem
          · simp only [adj] at hadj
            cases hg : listGet g r with
            | none => rw [hg] at hadj; simp at hadj
            | some v =>
              rw [hg] at hadj
              exact Or.inl ⟨(r, v), listGet_mem hg, hadj⟩
          · exact Or.inr (by simpa using hitem)
      · exact Or.inr he
    · rcases h2 with hk | hr
      · rw [addEdge, listSet_keys] at hk
        by_cases hg : listHas g r
        · rw [if_pos hg] at hk
          exact Or.inl hk
        · rw [if_neg hg] at hk
          rcases List.mem_append.mp hk with hk1 | hk2
          · exact Or.inl hk1
          · right
            simp at hk2
            simp [hk2]
      · exact Or.inr (List.mem_cons_of_mem _ hr)

theorem pipeKeys_append (P : List (String × List String)) (e : String × List String) :
    pipeKeys (P ++ [e]) = pipeKeys P ++ [e.1] := by
  simp [pipeKeys]

theorem refsOf_eq_nil_of_not_mem {P : List (String × List String)} {t : String}
    (h : t ∉ pipeKeys P) : refsOf P t = [] := by
  rw [refsOf, listGet_eq_none]
  · rfl
  · by_contra hc
    simp only [Bool.not_eq_false] at hc
    exact h ((listHas_iff P t).mp hc)

theorem refsOf_append_left {P : List (String × List String)} (Q : List (String × List String))
    {t : String} (h : t ∈ pipeKeys P) : refsOf (P ++ Q) t = refsOf P t := by
  rw [refsOf, refsOf, listGet_append_of_has]
  exact (listHas_iff P t).mpr h

theorem refsOf_append_self {P : List (String × List String)} {e : String × List String}
    (h : e.1 ∉ pipeKeys P) : refsOf (P ++ [e]) e.1 = e.2 := by
  rw [refsOf, listGet_append_of_not_has]
  · rw [listGet_cons, if_pos (by simp)]
    rfl
  · by_contra hc
    simp only [Bool.not_eq_false] at hc
    exact h ((listHas_iff P e.1).mp hc)

theorem refsOf_append_other {P : List (String × List String)} {e : String × List String}
    {t : String} (h1 : t ∉ pipeKeys P) (h2 : t ≠ e.1) : refsOf (P ++ [e]) t = [] := by
  rw [refsOf, listGet_append_of_not_has]
  · rw [listGet_cons, if_neg (by simp; exact fun hc => h2 hc.symm)]
    rfl
  · by_contra hc
    simp only [Bool.not_eq_false] at hc
    exact h1 ((listHas_iff P t).mp hc)

theorem refsOf_append_ne {P : List (String × List String)} {e : String × List String}
    {t : String} (h2 : t ≠ e.1) : refsOf (P ++ [e]) t = refsOf P t := by
  by_cases h1 : t ∈ pipeKeys P
  · exact refsOf_append_left _ h1
  · rw [refsOf_append_other h1 h2, refsOf_eq_nil_of_not_mem h1]

/-- Invariant of `buildGraph pipes = (g, d)` for a catalog with distinct
display names. -/
structure BuildInv (pipes : List (String × List String)) (g : Graph) (d : Degs) : Prop where
  keys_eq : d.map Prod.fst = pipeKeys pipes
  deg_eq : ∀ t ∈ pipeKeys pipes, listGet d t = some ((refsOf pipes t).length : Int)
  adj_count : ∀ x t, (adj g x).count t = (refsOf pipes t).count x
  adj_mem : ∀ p ∈ g, ∀ u ∈ p.2, u ∈ pipeKeys pipes
  key_referenced : ∀ p ∈ g, ∃ t ∈ pipeKeys pipes, p.1 ∈ refsOf pipes t

theorem buildGraph_inv (pipes : List (String × List String))
    (hnd : (pipeKeys pipes).Nodup) :
    BuildInv pipes (buildGraph pipes).1 (buildGraph pipes).2 := by
  induction pipes using List.reverseRecOn with
  | nil =>
    constructor
    · rfl
    · intro t ht
      simp [pipeKeys] at ht
    · intro x t
      simp [adj, refsOf, buildGraph]
    · intro p hp
      simp [buildGraph] at hp
    · intro p hp
      simp [buildGraph] at hp
  | append_singleton P e ih =>
    rw [pipeKeys_append] at hnd
    have hndP : (pipeKeys P).Nodup := (List.nodup_append.mp hnd).1
    have hniP : e.1 ∉ pipeKeys P := by
      have hdis := (List.nodup_append.mp hnd).2.2
      intro hc
      exact hdis hc (by simp)
    obtain ⟨hkeys, hdeg, hadj, hmem, href⟩ := ih hndP
    have hstep : buildGraph (P ++ [e]) = buildStep (buildGraph P) e := by
      rw [buildGraph, List.foldl_append]
      rfl
    set g := (buildGraph P).1 with hg
    set d := (buildGraph P).2 with hd
    have hbe := buildStep_eq (buildGraph P) e
    have hg' : (buildGraph (P ++ [e])).1 = addEdges e.1 g e.2 := by
      rw [hstep, hbe]
    have hhasd : listHas d e.1 = false := by
      by_contra hc
      simp only [Bool.not_eq_false] at hc
      rw [listHas_iff, hkeys] at hc
      exact hniP hc
    have hd' : (buildGraph (P ++ [e])).2 =
        (if e.2.length = 0 then d ++ [(e.1, 0)] else bumpN e.1 e.2.length d) := by
      rw [hstep, hbe]
      by_cases hlen : e.2.length = 0
      · have he2 : e.2 = [] := List.length_eq_zero.mp hlen
        simp only [he2, List.length_nil, bumpN]
        rw [if_neg (by simp [hhasd])]
        simp
      · have hb : listHas (bumpN e.1 e.2.length d) e.1 = true := by
          rw [listHas_iff, bumpN_keys, if_neg (by simp [hlen, hhasd])]
          simp
        simp only [hb, if_true, if_neg hlen]
    constructor
    · -- keys_eq
      rw [hd', pipeKeys_append]
      by_cases hlen : e.2.length = 0
      · rw [if_pos hlen, List.map_append, hkeys]
        rfl
      · rw [if_neg hlen, bumpN_keys, if_neg (by simp [hlen, hhasd]), hkeys]
    · -- deg_eq
      intro t ht
      rw [pipeKeys_append] at ht
      rcases List.mem_append.mp ht with htP | hte
      · have htne : t ≠ e.1 := fun hc => hniP (hc ▸ htP)
        have hget : listGet (buildGraph (P ++ [e])).2 t = listGet d t := by
          rw [hd']
          by_cases hlen : e.2.length = 0
          · rw [if_pos hlen, listGet_append_of_has]
            rw [listHas_iff, hkeys]
            exact htP
          · rw [if_neg hlen, bumpN_get_ne _ _ _ _ htne]
        rw [hget, hdeg t htP, refsOf_append_left _ htP]
      · simp only [List.mem_singleton] at hte
        subst hte
        rw [refsOf_append_self hniP, hd']
        by_cases hlen : e.2.length = 0
        · rw [if_pos hlen, listGet_append_of_not_has _ _ _ hhasd, listGet_cons,
            if_pos (by simp)]
          have : e.2 = [] := List.length_eq_zero.mp hlen
          simp [this]
        · rw [if_neg hlen, bumpN_get_self, if_neg hlen,
            listGet_eq_none d e.1 hhasd]
          simp
    · -- adj_count
      intro x t
      rw [hg', addEdges_adj_count, hadj]
      by_cases ht : t = e.1
      · subst ht
        rw [refsOf_append_self hniP, refsOf_eq_nil_of_not_mem hniP, if_pos rfl]
        simp
      · rw [if_neg ht, refsOf_append_ne ht]
        omega
    · -- adj_mem
      intro p hp u hu
      rw [hg'] at hp
      obtain ⟨h1, _⟩ := addEdges_entry e.1 e.2 g p hp
      rw [pipeKeys_append]
      rcases h1 u hu with ⟨p0, hp0, hu0⟩ | he
      · exact List.mem_append.mpr (Or.inl (hmem p0 hp0 u hu0))
      · exact List.mem_append.mpr (Or.inr (by simp [he]))
    · -- key_referenced
      intro p hp
      rw [hg'] at hp
      obtain ⟨_, h2⟩ := addEdges_entry e.1 e.2 g p hp
      rcases h2 with hk | hr
      · obtain ⟨p0, hp0, he0⟩ := List.mem_map.mp hk
        obtain ⟨t, htP, htr⟩ := href p0 hp0
        refine ⟨t, ?_, ?_⟩
        · rw [pipeKeys_append]
          exact List.mem_append.mpr (Or.inl htP)
        · rw [refsOf_append_left _ htP, ← he0]
          exact htr
      · refine ⟨e.1, ?_, ?_⟩
        · rw [pipeKeys_append]
          simp
        · rw [refsOf_append_self hniP]
          exact hr

/-! ## The Kahn work-loop invariant -/

/-- Number of references of `t` (with multiplicity) not yet emitted. -/
def remDeg (pipes : List (String × List String)) (s : List String) (t : String) : Nat :=
  ((refsOf pipes t).filter (fun r => decide (r ∉ s))).length

theorem remDeg_zero_iff (pipes : List (String × List String)) (s : List String) (t : String) :
    remDeg pipes s t = 0 ↔ ∀ r ∈ refsOf pipes t, r ∈ s := by
  rw [remDeg, List.length_eq_zero, List.filter_eq_nil_iff]
  constructor
  · intro h r hr
    by_contra hc
    exact h r hr (by simp [hc])
  · intro h r hr
    simp [h r hr]

theorem count_filter_not_mem (l : List String) (s : List String) (x : String) (hx : x ∉ s) :
    (l.filter (fun r => decide (r ∉ s))).length
      = (l.filter (fun r => decide (r ∉ s ++ [x]))).length + l.count x := by
  induction l with
  | nil => simp
  | cons r rest ih =>
    rw [List.filter_cons, List.filter_cons]
    by_cases hr : r = x
    · subst hr
      rw [if_pos (by simp [hx]), if_neg (by simp)]
      have hcnt : List.count r (r :: rest) = List.count r rest + 1 := by
        rw [List.count_cons]
        simp
      rw [hcnt]
      simp only [List.length_cons]
      omega
    · have hne : ¬x = r := fun hc => hr hc.symm
      have hcnt : List.count x (r :: rest) = List.count x rest := by
        simp [List.count_cons, hne, hr]
      rw [hcnt]
      by_cases hd : r ∈ s
      · rw [if_neg (by simp [hd]), if_neg (by simp [hd])]
        exact ih
      · rw [if_pos (by simp [hd]), if_pos (by simp [hd, hr])]
        simp only [List.length_cons]
        omega

theorem remDeg_snoc (pipes : List (String × List String)) (s : List String) (x t : String)
    (hx : x ∉ s) :
    remDeg pipes s t = remDeg pipes (s ++ [x]) t + (refsOf pipes t).count x :=
  count_filter_not_mem _ s x hx

theorem Before_append_left {l l' : List α} {a b : α} (h : Before l a b) :
    Before (l ++ l') a b := by
  obtain ⟨i, j, hij, hi, hj⟩ := h
  have hjl : j < l.length := (List.get?_eq_some.mp hj).1
  have hil : i < l.length := (List.get?_eq_some.mp hi).1
  exact ⟨i, j, hij, by rw [List.get?_append hil]; exact hi,
    by rw [List.get?_append hjl]; exact hj⟩

theorem Before_mem_snoc {l : List α} {a : α} (x : α) (h : a ∈ l) :
    Before (l ++ [x]) a x := by
  obtain ⟨i, hi⟩ := List.mem_iff_get?.mp h
  have hil : i < l.length := (List.get?_eq_some.mp hi).1
  refine ⟨i, l.length, hil, by rw [List.get?_append hil]; exact hi, ?_⟩
  rw [List.get?_append_right (le_refl _)]
  simp

theorem Before_mem_left {l : List α} {a b : α} (h : Before l a b) : a ∈ l := by
  obtain ⟨i, _, _, hi, _⟩ := h
  exact List.get?_mem hi

theorem Before_mem_right {l : List α} {a b : α} (h : Before l a b) : b ∈ l := by
  obtain ⟨_, j, _, _, hj⟩ := h
  exact List.get?_mem hj

/-- Invariant of the source's Kahn `while` loop, between iterations:
the queue holds exactly the unemitted nodes whose references are all
emitted, the in-degree dict holds the number of unemitted references,
and the emitted prefix is topologically ordered. -/
structure KInv (pipes : List (String × List String)) (g : Graph)
    (q : List String) (d : Degs) (s : List String) : Prop where
  keys_eq : d.map Prod.fst = pipeKeys pipes
  deg_eq : ∀ t ∈ pipeKeys pipes, listGet d t = some ((remDeg pipes s t : Nat) : Int)
  queue_iff : ∀ n, n ∈ q ↔ (n ∈ pipeKeys pipes ∧ n ∉ s ∧ remDeg pipes s n = 0)
  queue_nodup : q.Nodup
  emitted_nodup : s.Nodup
  emitted_sub : ∀ n ∈ s, n ∈ pipeKeys pipes
  topo : ∀ t ∈ s, ∀ r ∈ refsOf pipes t, Before s r t

/-- Effect of the inner decrement fold over the popped node's neighbor
list, processed element by element. -/
theorem decFold_inv (pipes : List (String × List String)) (x : String) (s : List String) :
    ∀ (rest : List String) (d : Degs) (qc : List String),
    (∀ t ∈ rest, t ∈ pipeKeys pipes ∧ t ∉ s ++ [x]) →
    d.map Prod.fst = pipeKeys pipes →
    (∀ t ∈ pipeKeys pipes,
      listGet d t = some (((remDeg pipes (s ++ [x]) t + rest.count t : Nat)) : Int)) →
    (∀ n, n ∈ qc ↔
      (n ∈ pipeKeys pipes ∧ n ∉ s ++ [x] ∧ remDeg pipes (s ++ [x]) n + rest.count n = 0)) →
    qc.Nodup →
    (rest.foldl decStep (d, qc)).1.map Prod.fst = pipeKeys pipes ∧
    (∀ t ∈ pipeKeys pipes,
      listGet (rest.foldl decStep (d, qc)).1 t = some ((remDeg pipes (s ++ [x]) t : Nat) : Int)) ∧
    (∀ n, n ∈ (rest.foldl decStep (d, qc)).2 ↔
      (n ∈ pipeKeys pipes ∧ n ∉ s ++ [x] ∧ remDeg pipes (s ++ [x]) n = 0)) ∧
    (rest.foldl decStep (d, qc)).2.Nodup := by
  intro rest
  induction rest with
  | nil =>
    intro d qc _ hkeys hdeg hq hqnd
    simp only [List.foldl_nil]
    refine ⟨hkeys, ?_, ?_, hqnd⟩
    · intro t ht
      have := hdeg t ht
      simpa using this
    · intro n
      rw [hq n]
      simp
  | cons t rest ih =>
    intro d qc hmem hkeys hdeg hq hqnd
    have htk : t ∈ pipeKeys pipes := (hmem t (by simp)).1
    have hts : t ∉ s ++ [x] := (hmem t (by simp)).2
    -- the single decrement
    have hdt : listGet d t = some ((remDeg pipes (s ++ [x]) t + (rest.count t + 1) : Nat) : Int) := by
      have := hdeg t htk
      rw [this]
      congr 2
      rw [List.count_cons, if_pos (by simp)]
    have hstep : decStep (d, qc) t =
        (listSet d t ((remDeg pipes (s ++ [x]) t + rest.count t : Nat) : Int),
         if remDeg pipes (s ++ [x]) t + rest.count t = 0 then qc ++ [t] else qc) := by
      simp only [decStep, hdt, Option.getD_some]
      have harith : ((remDeg pipes (s ++ [x]) t + (rest.count t + 1) : Nat) : Int) - 1
          = ((remDeg pipes (s ++ [x]) t + rest.count t : Nat) : Int) := by
        push_cast
        ring
      rw [harith, listGet_listSet_self]
      simp only [Option.getD_some]
      by_cases hz : remDeg pipes (s ++ [x]) t + rest.count t = 0
      · rw [if_pos (by simp [hz]), if_pos hz]
      · rw [if_neg (by simpa using (by exact_mod_cast hz : ((remDeg pipes (s ++ [x]) t + rest.count t : Nat) : Int) ≠ 0)), if_neg hz]
    rw [List.foldl_cons, hstep]
    set d2 := listSet d t ((remDeg pipes (s ++ [x]) t + rest.count t : Nat) : Int) with hd2
    set q2 := if remDeg pipes (s ++ [x]) t + rest.count t = 0 then qc ++ [t] else qc with hq2
    have hhasdt : listHas d t = true := by
      rw [listHas_iff, hkeys]
      exact htk
    apply ih d2 q2
    · intro u hu
      exact hmem u (by simp [hu])
    · rw [hd2, listSet_has_keys d t _ hhasdt, hkeys]
    · intro u hu
      by_cases hut : u = t
      · subst hut
        rw [hd2, listGet_listSet_self]
      · rw [hd2, listGet_listSet_ne d t u _ hut]
        have := hdeg u hu
        rw [this]
        congr 2
        rw [List.count_cons]
        have hne : (t == u) = false := by
          simp only [beq_eq_false_iff_ne, ne_eq]
          exact fun hc => hut hc.symm
        rw [hne]
        simp
    · intro n
      rw [hq2]
      by_cases hz : remDeg pipes (s ++ [x]) t + rest.count t = 0
      · rw [if_pos hz]
        by_cases hnt : n = t
        · subst hnt
          constructor
          · intro _
            exact ⟨htk, hts, hz⟩
          · intro _
            simp
        · rw [List.mem_append]
          constructor
          · rintro (hn | hn)
            · have := (hq n).mp hn
              refine ⟨this.1, this.2.1, ?_⟩
              have heq := this.2.2
              rw [List.count_cons] at heq
              have hne : (t == n) = false := by
                simp only [beq_eq_false_iff_ne, ne_eq]
                exact fun hc => hnt hc.symm
              rw [hne] at heq
              simpa using heq
            · simp at hn
              exact absurd hn hnt
          · rintro ⟨h1, h2, h3⟩
            left
            rw [hq n]
            refine ⟨h1, h2, ?_⟩
            rw [List.count_cons]
            have hne : (t == n) = false := by
              simp only [beq_eq_false_iff_ne, ne_eq]
              exact fun hc => hnt hc.symm
            rw [hne]
            simpa using h3
      · rw [if_neg hz]
        by_cases hnt : n = t
        · subst hnt
          rw [hq n]
          constructor
          · rintro ⟨_, _, heq⟩
            exfalso
            rw [List.count_cons, if_pos (by simp)] at heq
            omega
          · rintro ⟨_, _, heq⟩
            exfalso
            exact hz (by omega)
        · rw [hq n]
          constructor
          · rintro ⟨h1, h2, h3⟩
            refine ⟨h1, h2, ?_⟩
            rw [List.count_cons] at h3
            have hne : (t == n) = false := by
              simp only [beq_eq_false_iff_ne, ne_eq]
              exact fun hc => hnt hc.symm
            rw [hne] at h3
            simpa using h3
          · rintro ⟨h1, h2, h3⟩
            refine ⟨h1, h2, ?_⟩
            rw [List.count_cons]
            have hne : (t == n) = false := by
              simp only [beq_eq_false_iff_ne, ne_eq]
              exact fun hc => hnt hc.symm
            rw [hne]
            simpa using h3
    · rw [hq2]
      by_cases hz : remDeg pipes (s ++ [x]) t + rest.count t = 0
      · rw [if_pos hz]
        have htq : t ∉ qc := by
          intro hc
          have := ((hq t).mp hc).2.2
          rw [List.count_cons, if_pos (by simp)] at this
          omega
        exact List.Nodup.append hqnd (by simp) (by
          intro a ha hb
          simp at hb
          subst hb
          exact htq ha)
      · rw [if_neg hz]
        exact hqnd

/-- One pop of the Kahn loop preserves the invariant. -/
theorem kahn_step (pipes : List (String × List String)) (g : Graph)
    (hadjc : ∀ x t, (adj g x).count t = (refsOf pipes t).count x)
    (hadjm : ∀ p ∈ g, ∀ u ∈ p.2, u ∈ pipeKeys pipes)
    (x : String) (q : List String) (d : Degs) (s : List String)
    (hI : KInv pipes g (x :: q) d s) :
    KInv pipes g ((adj g x).foldl decStep (d, q)).2
      ((adj g x).foldl decStep (d, q)).1 (s ++ [x]) := by
  obtain ⟨hkeys, hdeg, hqiff, hqnd, hsnd, hssub, htopo⟩ := hI
  have hx : x ∈ pipeKeys pipes ∧ x ∉ s ∧ remDeg pipes s x = 0 := (hqiff x).mp (by simp)
  have hxs : x ∉ s := hx.2.1
  have hmem : ∀ t ∈ adj g x, t ∈ pipeKeys pipes ∧ t ∉ s ++ [x] := by
    intro t ht
    have htk : t ∈ pipeKeys pipes := by
      cases hg : listGet g x with
      | none =>
        rw [adj, hg] at ht
        simp at ht
      | some v =>
        rw [adj, hg] at ht
        exact hadjm (x, v) (listGet_mem hg) t ht
    have hedge : x ∈ refsOf pipes t := by
      have hc : (adj g x).count t ≠ 0 := by
        intro hc
        exact (List.count_eq_zero.mp hc) ht
      rw [hadjc x t] at hc
      by_contra hcc
      exact hc (List.count_eq_zero.mpr hcc)
    refine ⟨htk, ?_⟩
    intro hc
    rcases List.mem_append.mp hc with hts | htx
    · exact hxs (Before_mem_left (htopo t hts x hedge))
    · simp only [List.mem_singleton] at htx
      subst htx
      exact hxs ((remDeg_zero_iff _ _ _).mp hx.2.2 t hedge)
  have hdeg2 : ∀ t ∈ pipeKeys pipes,
      listGet d t = some ((remDeg pipes (s ++ [x]) t + (adj g x).count t : Nat) : Int) := by
    intro t ht
    rw [hdeg t ht]
    congr 2
    rw [remDeg_snoc pipes s x t hxs, hadjc]
  have hq2 : ∀ n, n ∈ q ↔
      (n ∈ pipeKeys pipes ∧ n ∉ s ++ [x] ∧
        remDeg pipes (s ++ [x]) n + (adj g x).count n = 0) := by
    intro n
    have hxq : x ∉ q := (List.nodup_cons.mp hqnd).1
    constructor
    · intro hn
      have hnx : n ≠ x := fun hc => hxq (hc ▸ hn)
      have hmain := (hqiff n).mp (List.mem_cons_of_mem _ hn)
      refine ⟨hmain.1, ?_, ?_⟩
      · intro hc
        rcases List.mem_append.mp hc with h | h
        · exact hmain.2.1 h
        · simp only [List.mem_singleton] at h
          exact hnx h
      · have h0 : remDeg pipes s n = 0 := hmain.2.2
        rw [remDeg_snoc pipes s x n hxs] at h0
        rw [hadjc x n]
        exact h0
    · rintro ⟨h1, h2, h3⟩
      have hnx : n ≠ x := by
        intro hc
        exact h2 (by simp [hc])
      have hns : n ∉ s := fun hc => h2 (by simp [hc])
      have h0 : remDeg pipes s n = 0 := by
        rw [remDeg_snoc pipes s x n hxs, ← hadjc x n]
        exact h3
      have hn : n ∈ x :: q := (hqiff n).mpr ⟨h1, hns, h0⟩
      rcases List.mem_cons.mp hn with h | h
      · exact absurd h hnx
      · exact h
  have hq'nd : q.Nodup := (List.nodup_cons.mp hqnd).2
  obtain ⟨c1, c2, c3, c4⟩ :=
    decFold_inv pipes x s (adj g x) d q hmem hkeys hdeg2 hq2 hq'nd
  refine ⟨c1, c2, c3, c4, ?_, ?_, ?_⟩
  · refine List.Nodup.append hsnd (by simp) ?_
    intro a ha hb
    simp only [List.mem_singleton] at hb
    subst hb
    exact hxs ha
  · intro n hn
    rcases List.mem_append.mp hn with h | h
    · exact hssub n h
    · simp only [List.mem_singleton] at h
      subst h
      exact hx.1
  · intro t ht r hr
    rcases List.mem_append.mp ht with hts | htx
    · exact Before_append_left (htopo t hts r hr)
    · simp only [List.mem_singleton] at htx
      subst htx
      exact Before_mem_snoc _ ((remDeg_zero_iff _ _ _).mp hx.2.2 r hr)

/-- Running the fueled loop to completion from any invariant state with
enough fuel ends with an empty ready queue and the invariant intact. -/
theorem kahnLoop_inv (pipes : List (String × List String)) (g : Graph)
    (hadjc : ∀ x t, (adj g x).count t = (refsOf pipes t).count x)
    (hadjm : ∀ p ∈ g, ∀ u ∈ p.2, u ∈ pipeKeys pipes) :
    ∀ (fuel : Nat) (q : List String) (d : Degs) (s : List String),
    KInv pipes g q d s →
    (pipeKeys pipes).length ≤ s.length + fuel →
    KInv pipes g [] (kahnLoop g fuel q d s).2 (kahnLoop g fuel q d s).1 := by
  intro fuel
  induction fuel with
  | zero =>
    intro q d s hI hfuel
    have hsub : s ⊆ pipeKeys pipes := fun a ha => hI.emitted_sub a ha
    have hsp : s.Subperm (pipeKeys pipes) := hI.emitted_nodup.subperm hsub
    have hperm : s.Perm (pipeKeys pipes) := hsp.perm_of_length_le (by omega)
    have hqnil : q = [] := by
      rw [List.eq_nil_iff_forall_not_mem]
      intro n hn
      have := (hI.queue_iff n).mp hn
      exact this.2.1 (hperm.symm.subset this.1)
    subst hqnil
    exact hI
  | succ fuel ih =>
    intro q d s hI hfuel
    cases q with
    | nil => exact hI
    | cons x q =>
      show KInv pipes g []
        (kahnLoop g fuel ((adj g x).foldl decStep (d, q)).2
          ((adj g x).foldl decStep (d, q)).1 (s ++ [x])).2 _
      apply ih
      · exact kahn_step pipes g hadjc hadjm x q d s hI
      · simp only [List.length_append, List.length_singleton]
        omega

theorem remDeg_nil (pipes : List (String × List String)) (t : String) :
    remDeg pipes [] t = (refsOf pipes t).length := by
  simp [remDeg]

theorem list_exists_min_image (l : List String) (f : String → Nat) (h : l ≠ []) :
    ∃ a ∈ l, ∀ b ∈ l, f a ≤ f b := by
  induction l with
  | nil => exact absurd rfl h
  | cons x l ih =>
    cases l with
    | nil =>
      refine ⟨x, by simp, ?_⟩
      intro b hb
      simp only [List.mem_singleton] at hb
      subst hb
      exact le_refl _
    | cons y t =>
      obtain ⟨a, hal, hmin⟩ := ih (by simp)
      by_cases hfa : f x ≤ f a
      · refine ⟨x, by simp, ?_⟩
        intro b hb
        rcases List.mem_cons.mp hb with hbx | hb
        · subst hbx
          exact le_refl _
        · exact le_trans hfa (hmin b hb)
      · refine ⟨a, List.mem_cons_of_mem _ hal, ?_⟩
        intro b hb
        rcases List.mem_cons.mp hb with hbx | hb
        · subst hbx
          omega
        · exact hmin b hb

theorem closedRefs_spec {pipes : List (String × List String)}
    (h : closedRefs pipes = true) :
    ∀ t r, r ∈ refsOf pipes t → r ∈ pipeKeys pipes := by
  intro t r hr
  rw [refsOf] at hr
  cases hg : listGet pipes t with
  | none =>
    rw [hg] at hr
    simp at hr
  | some refs =>
    rw [hg] at hr
    simp only [Option.getD_some] at hr
    have hmem := listGet_mem hg
    rw [closedRefs, List.all_eq_true] at h
    have h2 := h (t, refs) hmem
    rw [List.all_eq_true] at h2
    have h3 := h2 r hr
    simpa using h3

/-- The invariant holds on entry to the `while` loop. -/
theorem kahn_init (pipes : List (String × List String))
    (hnd : (pipeKeys pipes).Nodup) :
    KInv pipes (buildGraph pipes).1
      (((buildGraph pipes).2.filter (fun p => p.2 == 0)).map Prod.fst)
      (buildGraph pipes).2 [] := by
  obtain ⟨hkeys, hdeg, _, _, _⟩ := buildGraph_inv pipes hnd
  have hdnd : ((buildGraph pipes).2.map Prod.fst).Nodup := by
    rw [hkeys]
    exact hnd
  refine ⟨hkeys, ?_, ?_, ?_, List.nodup_nil, by simp, by simp⟩
  · intro t ht
    rw [hdeg t ht, remDeg_nil]
  · intro n
    constructor
    · intro hn
      obtain ⟨p, hp, hpn⟩ := List.mem_map.mp hn
      have hpd : p ∈ (buildGraph pipes).2 := (List.mem_filter.mp hp).1
      have hpz : (p.2 == 0) = true := (List.mem_filter.mp hp).2
      have hget : listGet (buildGraph pipes).2 p.1 = some p.2 :=
        mem_listGet_of_nodup hdnd (by
          cases p
          exact hpd)
      have hk : n ∈ pipeKeys pipes := by
        rw [← hkeys, ← hpn]
        exact List.mem_map.mpr ⟨p, hpd, rfl⟩
      refine ⟨hk, by simp, ?_⟩
      have := hdeg n hk
      rw [← hpn] at this
      rw [hget] at this
      have hv : p.2 = ((refsOf pipes n).length : Int) := by
        rw [← hpn]
        injection this
      rw [eq_of_beq hpz] at hv
      rw [remDeg_nil]
      exact_mod_cast hv.symm
    · rintro ⟨h1, _, h3⟩
      rw [remDeg_nil] at h3
      have hget : listGet (buildGraph pipes).2 n = some ((refsOf pipes n).length : Int) :=
        hdeg n h1
      have hmem : (n, ((refsOf pipes n).length : Int)) ∈ (buildGraph pipes).2 :=
        listGet_mem hget
      refine List.mem_map.mpr ⟨(n, ((refsOf pipes n).length : Int)), ?_, rfl⟩
      refine List.mem_filter.mpr ⟨hmem, ?_⟩
      simp [h3]
  · refine List.Nodup.sublist ?_ hdnd
    exact List.Sublist.map _ (List.filter_sublist _)

/-- In an acyclic closed graph every catalog pipeline gets emitted. -/
theorem kahn_all_emitted (pipes : List (String × List String)) (g : Graph) (dF : Degs)
    (hcl : ∀ t r, r ∈ refsOf pipes t → r ∈ pipeKeys pipes)
    (hac : Acyclic pipes) (sF : List String)
    (hKI : KInv pipes g [] dF sF) :
    ∀ n ∈ pipeKeys pipes, n ∈ sF := by
  by_contra hc
  push_neg at hc
  obtain ⟨n0, hn0k, hn0s⟩ := hc
  obtain ⟨f, hf⟩ := hac
  have hn0U : n0 ∈ (pipeKeys pipes).filter (fun n => decide (n ∉ sF)) :=
    List.mem_filter.mpr ⟨hn0k, by simpa⟩
  obtain ⟨u, huU, humin⟩ :=
    list_exists_min_image ((pipeKeys pipes).filter (fun n => decide (n ∉ sF))) f
      (List.ne_nil_of_mem hn0U)
  have huk : u ∈ pipeKeys pipes := (List.mem_filter.mp huU).1
  have hus : u ∉ sF := by simpa using (List.mem_filter.mp huU).2
  have hrd : remDeg pipes sF u ≠ 0 := by
    intro h0
    have : u ∈ ([] : List String) := (hKI.queue_iff u).mpr ⟨huk, hus, h0⟩
    simp at this
  have hex : ∃ r ∈ refsOf pipes u, r ∉ sF := by
    by_contra hcc
    push_neg at hcc
    exact hrd ((remDeg_zero_iff _ _ _).mpr hcc)
  obtain ⟨r, hru, hrs⟩ := hex
  have hrU : r ∈ (pipeKeys pipes).filter (fun n => decide (n ∉ sF)) :=
    List.mem_filter.mpr ⟨hcl u r hru, by simpa⟩
  have h1 := humin r hrU
  have h2 := hf r u hru
  omega

theorem refsOf_ne_nil_key {pipes : List (String × List String)} {t : String}
    (h : refsOf pipes t ≠ []) : t ∈ pipeKeys pipes := by
  by_contra hc
  exact h (refsOf_eq_nil_of_not_mem hc)

theorem Before_indexOf_lt {l : List String} (hnd : l.Nodup) {a b : String}
    (h : Before l a b) : l.indexOf a < l.indexOf b := by
  obtain ⟨i, j, hij, hi, hj⟩ := h
  have hil : i < l.length := (List.get?_eq_some.mp hi).1
  have hjl : j < l.length := (List.get?_eq_some.mp hj).1
  have ha : a ∈ l := List.get?_mem hi
  have hb : b ∈ l := List.get?_mem hj
  have hia : l.get? (l.indexOf a) = some a := List.indexOf_get? ha
  have hjb : l.get? (l.indexOf b) = some b := List.indexOf_get? hb
  have hEa : i = l.indexOf a := List.get?_inj hil hnd (by rw [hi, hia])
  have hEb : j = l.indexOf b := List.get?_inj hjl hnd (by rw [hj, hjb])
  omega

/-- Shared core: the loop's output on the build of an acyclic closed
catalog is a permutation of the catalog in topological order. -/
theorem kahn_final (pipes : List (String × List String))
    (hnd : (pipeKeys pipes).Nodup)
    (hclw : ∀ t r, r ∈ refsOf pipes t → r ∈ pipeKeys pipes)
    (hac : Acyclic pipes) :
    (kahnLoop (buildGraph pipes).1 (buildGraph pipes).2.length
        (((buildGraph pipes).2.filter (fun p => p.2 == 0)).map Prod.fst)
        (buildGraph pipes).2 []).1.Perm (pipeKeys pipes) ∧
    (∀ r t, r ∈ refsOf pipes t →
      Before (kahnLoop (buildGraph pipes).1 (buildGraph pipes).2.length
        (((buildGraph pipes).2.filter (fun p => p.2 == 0)).map Prod.fst)
        (buildGraph pipes).2 []).1 r t) := by
  obtain ⟨hkeys, _, hadjc, hadjm, _⟩ := buildGraph_inv pipes hnd
  have hI0 := kahn_init pipes hnd
  have hfuel : (pipeKeys pipes).length ≤ ([] : List String).length + (buildGraph pipes).2.length := by
    have : (buildGraph pipes).2.length = (pipeKeys pipes).length := by
      rw [← hkeys, List.length_map]
    omega
  have hfin := kahnLoop_inv pipes (buildGraph pipes).1 hadjc hadjm
    (buildGraph pipes).2.length
    (((buildGraph pipes).2.filter (fun p => p.2 == 0)).map Prod.fst)
    (buildGraph pipes).2 [] hI0 hfuel
  have hall := kahn_all_emitted pipes _ _ hclw hac _ hfin
  have hsub : (kahnLoop (buildGraph pipes).1 (buildGraph pipes).2.length
      (((buildGraph pipes).2.filter (fun p => p.2 == 0)).map Prod.fst)
      (buildGraph pipes).2 []).1 ⊆ pipeKeys pipes :=
    fun a ha => hfin.emitted_sub a ha
  have hperm : (kahnLoop (buildGraph pipes).1 (buildGraph pipes).2.length
      (((buildGraph pipes).2.filter (fun p => p.2 == 0)).map Prod.fst)
      (buildGraph pipes).2 []).1.Perm (pipeKeys pipes) := by
    have hsp := hfin.emitted_nodup.subperm hsub
    refine hsp.perm_of_length_le ?_
    have hsp2 := hnd.subperm (fun a ha => hall a ha)
    exact hsp2.length_le
  refine ⟨hperm, ?_⟩
  intro r t hrt
  have htk : t ∈ pipeKeys pipes := refsOf_ne_nil_key (by
    intro hc
    rw [hc] at hrt
    simp at hrt)
  exact hfin.topo t (hperm.symm.subset htk) r hrt

/-- If the loop emits as many nodes as the in-degree dict holds, the
catalog's reference graph is acyclic. -/
theorem kahn_sound (pipes : List (String × List String))
    (hnd : (pipeKeys pipes).Nodup)
    (hlen : (kahnLoop (buildGraph pipes).1 (buildGraph pipes).2.length
        (((buildGraph pipes).2.filter (fun p => p.2 == 0)).map Prod.fst)
        (buildGraph pipes).2 []).1.length = (buildGraph pipes).2.length) :
    Acyclic pipes := by
  obtain ⟨hkeys, _, hadjc, hadjm, _⟩ := buildGraph_inv pipes hnd
  have hI0 := kahn_init pipes hnd
  have hfuel : (pipeKeys pipes).length ≤ ([] : List String).length + (buildGraph pipes).2.length := by
    have : (buildGraph pipes).2.length = (pipeKeys pipes).length := by
      rw [← hkeys, List.length_map]
    omega
  have hfin := kahnLoop_inv pipes (buildGraph pipes).1 hadjc hadjm
    (buildGraph pipes).2.length
    (((buildGraph pipes).2.filter (fun p => p.2 == 0)).map Prod.fst)
    (buildGraph pipes).2 [] hI0 hfuel
  set sF := (kahnLoop (buildGraph pipes).1 (buildGraph pipes).2.length
      (((buildGraph pipes).2.filter (fun p => p.2 == 0)).map Prod.fst)
      (buildGraph pipes).2 []).1 with hsF
  have hsub : sF ⊆ pipeKeys pipes := fun a ha => hfin.emitted_sub a ha
  have hperm : sF.Perm (pipeKeys pipes) := by
    have hsp := hfin.emitted_nodup.subperm hsub
    refine hsp.perm_of_length_le ?_
    rw [hlen, ← hkeys, List.length_map]
  refine ⟨fun x => sF.indexOf x, ?_⟩
  intro r t hrt
  have htk : t ∈ pipeKeys pipes := refsOf_ne_nil_key (by
    intro hc
    rw [hc] at hrt
    simp at hrt)
  have hts : t ∈ sF := hperm.symm.subset htk
  exact Before_indexOf_lt hfin.emitted_nodup (hfin.topo t hts r hrt)

/-- On a closed catalog the `Deployed`-mode back-fill changes nothing:
every graph key is a catalog pipeline (closedness) and every neighbor is
a catalog pipeline, and all of those already have in-degree entries. -/
theorem backfill_id (pipes : List (String × List String))
    (hnd : (pipeKeys pipes).Nodup)
    (hclw : ∀ t r, r ∈ refsOf pipes t → r ∈ pipeKeys pipes) :
    backfill (buildGraph pipes).1 (buildGraph pipes).2 = (buildGraph pipes).2 := by
  obtain ⟨hkeys, _, _, hadjm, href⟩ := buildGraph_inv pipes hnd
  have hfacts : ∀ p ∈ (buildGraph pipes).1,
      p.1 ∈ pipeKeys pipes ∧ ∀ u ∈ p.2, u ∈ pipeKeys pipes := by
    intro p hp
    obtain ⟨t, _, htr⟩ := href p hp
    exact ⟨hclw t p.1 htr, fun u hu => hadjm p hp u hu⟩
  rw [backfill]
  generalize hGL : (buildGraph pipes).1 = gl at hfacts
  clear hGL href hadjm
  induction gl with
  | nil => rfl
  | cons p gl ih =>
    rw [List.foldl_cons]
    have hp1 := (hfacts p (by simp)).1
    have hp2 := (hfacts p (by simp)).2
    have hhas1 : listHas (buildGraph pipes).2 p.1 = true := by
      rw [listHas_iff, hkeys]
      exact hp1
    rw [if_pos hhas1]
    have hinner : p.2.foldl
        (fun d n => if listHas d n then d else listSet d n (((listGet d n).getD 0) + 1))
        (buildGraph pipes).2 = (buildGraph pipes).2 := by
      have : ∀ ns : List String, (∀ n ∈ ns, n ∈ pipeKeys pipes) →
          ns.foldl (fun d n => if listHas d n then d
            else listSet d n (((listGet d n).getD 0) + 1)) (buildGraph pipes).2
            = (buildGraph pipes).2 := by
        intro ns
        induction ns with
        | nil => intro _; rfl
        | cons n ns ihn =>
          intro hns
          rw [List.foldl_cons, if_pos (by
            rw [listHas_iff, hkeys]
            exact hns n (by simp))]
          exact ihn (fun m hm => hns m (by simp [hm]))
      exact this p.2 hp2
    rw [hinner]
    exact ih (fun q hq => hfacts q (by simp [hq]))

/-- Shared specification of the `Repository`-mode sort on an acyclic
closed catalog (used by several claims below). -/
theorem sort_repository_spec (pipes : List (String × List String))
    (hnd : (pipeKeys pipes).Nodup)
    (hcl : closedRefs pipes = true)
    (hac : Acyclic pipes) :
    ∃ s, sort_datapipelines pipes LookupType.Repository = Except.ok s ∧
      s.Perm (pipeKeys pipes) ∧
      (∀ r t, r ∈ refsOf pipes t → Before s r t) := by
  have hclw := closedRefs_spec hcl
  obtain ⟨hperm, htopo⟩ := kahn_final pipes hnd hclw hac
  have hkeys := (buildGraph_inv pipes hnd).keys_eq
  have hlen : (kahnLoop (buildGraph pipes).1 (buildGraph pipes).2.length
      (((buildGraph pipes).2.filter (fun p => p.2 == 0)).map Prod.fst)
      (buildGraph pipes).2 []).1.length = (buildGraph pipes).2.length := by
    rw [hperm.length_eq, ← hkeys, List.length_map]
  refine ⟨_, ?_, hperm, htopo⟩
  have hdef : sort_datapipelines pipes LookupType.Repository =
      (if (kahnLoop (buildGraph pipes).1 (buildGraph pipes).2.length
          (((buildGraph pipes).2.filter (fun p => p.2 == 0)).map Prod.fst)
          (buildGraph pipes).2 []).1.length ≠ (buildGraph pipes).2.length
       then Except.error cycleMsg
       else Except.ok (kahnLoop (buildGraph pipes).1 (buildGraph pipes).2.length
          (((buildGraph pipes).2.filter (fun p => p.2 == 0)).map Prod.fst)
          (buildGraph pipes).2 []).1) := rfl
  rw [hdef, if_neg (by simp [hlen])]

/-- C1: for every acyclic pipeline reference graph (every reference
naming a pipeline of the catalog, names distinct), `sort_datapipelines`
in `Repository` mode returns an ordering containing every pipeline of
the catalog exactly once (a permutation of the catalog, including
pipelines with no edges), in which for every edge referenced→referrer
the referenced pipeline precedes the referrer. -/
theorem sort_repository_topological (pipes : List (String × List String))
    (hnd : (pipeKeys pipes).Nodup)
    (hcl : closedRefs pipes = true)
    (hac : Acyclic pipes) :
    ∃ s, sort_datapipelines pipes LookupType.Repository = Except.ok s ∧
      s.Perm (pipeKeys pipes) ∧
      (∀ r t, r ∈ refsOf pipes t → Before s r t) :=
  sort_repository_spec pipes hnd hcl hac

/-- Witness for C1 at the spec's concrete scenario: repository
`{Child (no references), Parent (references Child)}`. -/
theorem sort_repository_topological_witness :
    ∃ s, sort_datapipelines [("Child", []), ("Parent", ["Child"])] LookupType.Repository
        = Except.ok s ∧
      s.Perm (pipeKeys [("Child", []), ("Parent", ["Child"])]) ∧
      (∀ r t, r ∈ refsOf [("Child", []), ("Parent", ["Child"])] t → Before s r t) :=
  sort_repository_topological _ (by decide) (by decide)
    ⟨fun x => if x = "Child" then 0 else 1, by
      intro r t hrt
      rw [refsOf, listGet_cons, listGet_cons] at hrt
      by_cases h1 : t = "Child"
      · rw [if_pos (by simp [h1])] at hrt
        simp at hrt
      · rw [if_neg (by simp; exact fun hc => h1 hc.symm)] at hrt
        by_cases h2 : t = "Parent"
        · rw [if_pos (by simp [h2])] at hrt
          simp only [Option.getD_some, List.mem_singleton] at hrt
          subst hrt
          subst h2
          decide
        · rw [if_neg (by simp; exact fun hc => h2 hc.symm)] at hrt
          simp at hrt⟩

/-- C2: a cyclic reference graph makes `sort_datapipelines` raise the
cycle error (the `ValueError` of `workspace_item_utilities.py:1296`,
wrapped into the function's `RuntimeError`), in both `Repository`
(publish) and `Deployed` (teardown) modes. -/
theorem sort_cycle_error (pipes : List (String × List String)) (mode : LookupType)
    (hnd : (pipeKeys pipes).Nodup)
    (hcl : closedRefs pipes = true)
    (hcy : ¬ Acyclic pipes) :
    sort_datapipelines pipes mode = Except.error cycleMsg := by
  have hclw := closedRefs_spec hcl
  have hne : (kahnLoop (buildGraph pipes).1 (buildGraph pipes).2.length
      (((buildGraph pipes).2.filter (fun p => p.2 == 0)).map Prod.fst)
      (buildGraph pipes).2 []).1.length ≠ (buildGraph pipes).2.length := by
    intro he
    exact hcy (kahn_sound pipes hnd he)
  cases mode with
  | Repository =>
    have hdef : sort_datapipelines pipes LookupType.Repository =
        (if (kahnLoop (buildGraph pipes).1 (buildGraph pipes).2.length
            (((buildGraph pipes).2.filter (fun p => p.2 == 0)).map Prod.fst)
            (buildGraph pipes).2 []).1.length ≠ (buildGraph pipes).2.length
         then Except.error cycleMsg
         else Except.ok (kahnLoop (buildGraph pipes).1 (buildGraph pipes).2.length
            (((buildGraph pipes).2.filter (fun p => p.2 == 0)).map Prod.fst)
            (buildGraph pipes).2 []).1) := rfl
    rw [hdef, if_pos hne]
  | Deployed =>
    have hback := backfill_id pipes hnd hclw
    have hdef : sort_datapipelines pipes LookupType.Deployed =
        (if (kahnLoop (buildGraph pipes).1
            (backfill (buildGraph pipes).1 (buildGraph pipes).2).length
            (((backfill (buildGraph pipes).1 (buildGraph pipes).2).filter
              (fun p => p.2 == 0)).map Prod.fst)
            (backfill (buildGraph pipes).1 (buildGraph pipes).2) []).1.length
            ≠ (backfill (buildGraph pipes).1 (buildGraph pipes).2).length
         then Except.error cycleMsg
         else Except.ok (((kahnLoop (buildGraph pipes).1
            (backfill (buildGraph pipes).1 (buildGraph pipes).2).length
            (((backfill (buildGraph pipes).1 (buildGraph pipes).2).filter
              (fun p => p.2 == 0)).map Prod.fst)
            (backfill (buildGraph pipes).1 (buildGraph pipes).2) []).1.filter
            (fun n => pipes.any (fun p => p.1 == n))).reverse)) := rfl
    rw [hdef, hback, if_pos hne]

/-- Witness for C2: the spec's two-pipeline cycle, A references B and B
references A, in both modes. -/
theorem sort_cycle_error_witness :
    sort_datapipelines [("A", ["B"]), ("B", ["A"])] LookupType.Repository
        = Except.error cycleMsg ∧
    sort_datapipelines [("A", ["B"]), ("B", ["A"])] LookupType.Deployed
        = Except.error cycleMsg :=
  have hnd : (pipeKeys [("A", ["B"]), ("B", ["A"])]).Nodup := by decide
  have hcl : closedRefs [("A", ["B"]), ("B", ["A"])] = true := by decide
  have hcy : ¬ Acyclic [("A", ["B"]), ("B", ["A"])] := by
    rintro ⟨f, hf⟩
    have h1 : f "B" < f "A" := hf "B" "A" (by decide)
    have h2 : f "A" < f "B" := hf "A" "B" (by decide)
    omega
  ⟨sort_cycle_error _ _ hnd hcl hcy, sort_cycle_error _ _ hnd hcl hcy⟩

/-! ## Teardown (`delete_old_items`) -/

theorem Before_cons {l : List α} {a b x : α} (h : Before l a b) : Before (x :: l) a b := by
  obtain ⟨i, j, hij, hi, hj⟩ := h
  exact ⟨i + 1, j + 1, by omega, by simpa using hi, by simpa using hj⟩

theorem Before_cons_of_mem {l : List α} {b x : α} (hb : b ∈ l) : Before (x :: l) x b := by
  obtain ⟨i, hi⟩ := List.mem_iff_get?.mp hb
  exact ⟨0, i + 1, by omega, rfl, by simpa using hi⟩

theorem Before_reverse {l : List α} {a b : α} (h : Before l a b) : Before l.reverse b a := by
  obtain ⟨i, j, hij, hi, hj⟩ := h
  have hil : i < l.length := (List.get?_eq_some.mp hi).1
  have hjl : j < l.length := (List.get?_eq_some.mp hj).1
  refine ⟨l.length - 1 - j, l.length - 1 - i, by omega, ?_, ?_⟩
  · rw [List.get?_reverse (show l.length - 1 - j < l.length by omega)]
    have he : l.length - 1 - (l.length - 1 - j) = j := by omega
    rw [he]
    exact hj
  · rw [List.get?_reverse (show l.length - 1 - i < l.length by omega)]
    have he : l.length - 1 - (l.length - 1 - i) = i := by omega
    rw [he]
    exact hi

theorem Before_filter {l : List α} {p : α → Bool} {a b : α}
    (h : Before l a b) (ha : p a = true) (hb : p b = true) :
    Before (l.filter p) a b := by
  induction l with
  | nil =>
    obtain ⟨i, _, _, hi, _⟩ := h
    simp at hi
  | cons x rest ih =>
    obtain ⟨i, j, hij, hi, hj⟩ := h
    cases i with
    | zero =>
      have hax : x = a := by simpa using hi
      obtain ⟨j', rfl⟩ : ∃ j', j = j' + 1 := ⟨j - 1, by omega⟩
      have hbr : b ∈ rest := List.get?_mem (by simpa using hj)
      rw [List.filter_cons, if_pos (by rw [hax]; exact ha)]
      subst hax
      exact Before_cons_of_mem (List.mem_filter.mpr ⟨hbr, hb⟩)
    | succ i' =>
      obtain ⟨j', rfl⟩ : ∃ j', j = j' + 1 := ⟨j - 1, by omega⟩
      have hi' : rest.get? i' = some a := by simpa using hi
      have hj' : rest.get? j' = some b := by simpa using hj
      have hrec := ih ⟨i', j', by omega, hi', hj'⟩
      rw [List.filter_cons]
      by_cases hpx : p x = true
      · rw [if_pos hpx]
        exact Before_cons hrec
      · rw [if_neg hpx]
        exact hrec

/-- ASCII lower-casing of one character, as Python `str.lower()` does on
the ASCII item-type names compared by the source. -/
def lowerChar (c : Char) : Char :=
  if 'A' ≤ c ∧ c ≤ 'Z' then Char.ofNat (c.toNat + 32) else c

/-- ASCII lower-casing, modelling Python `str.lower()` on item types. -/
def lowerStr (s : String) : String := String.mk (s.data.map lowerChar)

/-- A deployed workspace item as returned by the item-listing API
(`type`, `displayName`, `id`). -/
structure WorkspaceItem where
  displayName : String
  itemType : String
  id : String
deriving DecidableEq

/-- The `displayName → item` hashmap of `workspace_item_utilities.py:181`
(a dict comprehension, so a later duplicate display name overwrites an
earlier one). -/
def itemsMap (items : List WorkspaceItem) : List (String × WorkspaceItem) :=
  items.foldl (fun m it => listSet m it.displayName it) []

/-- Does the deletion loop of `delete_old_items` delete pipeline `n`:
the name must be a key of the items map and the matching item must have
type `datapipeline` (case-insensitive). -/
def isDeployedPipeline (items : List WorkspaceItem) (n : String) : Bool :=
  match listGet (itemsMap items) n with
  | some it => lowerStr it.itemType == "datapipeline"
  | none => false

/-- `delete_old_items` (`workspace_item_utilities.py:133-203`), reduced
to its deletion decisions (the HTTP deletes and the rate-limit sleeps
are the only omitted effects).  It deletes every `Environment`-typed
item, then computes the publish order of the REPOSITORY pipelines in
`Repository` mode, reverses it, and deletes each name in that order
that matches a deployed item of type `datapipeline`.  Returns the
deleted Environment display names (listing order) and deleted pipeline
names (deletion order). -/
def delete_old_items (items : List WorkspaceItem)
    (repoPipes : List (String × List String)) :
    Except String (List String × List String) :=
  let envDeleted := (items.filter
    (fun it => lowerStr it.itemType == "environment")).map (fun it => it.displayName)
  match sort_datapipelines repoPipes LookupType.Repository with
  | Except.error e => Except.error e
  | Except.ok publish_order =>
    let publish_order_reversed := publish_order.reverse
    let pipeDeleted := publish_order_reversed.filter (isDeployedPipeline items)
    Except.ok (envDeleted, pipeDeleted)

/-- C3 counterexample.  Target workspace holds pipelines `Stale` (absent
from the repository) and `Kept` (present in the repository).  The claim
says exactly `Stale` is deleted; the code deletes exactly `Kept` (it
derives the deletion list from the repository's publish order, so a
pipeline absent from the repository is never deleted, and pipelines
present in both are deleted). -/
theorem delete_old_items_counterexample :
    delete_old_items
      [⟨"Stale", "DataPipeline", "id1"⟩, ⟨"Kept", "DataPipeline", "id2"⟩,
        ⟨"Env1", "Environment", "id3"⟩]
      [("Kept", [])]
      = Except.ok (["Env1"], ["Kept"]) ∧
    "Stale" ∉ (["Kept"] : List String) ∧ "Kept" ∈ (["Kept"] : List String) := by
  refine ⟨?_, by decide, by decide⟩
  rfl

/-- C3 amended: in incremental mode all `Environment`-kind items in the
target are unconditionally deleted; then the pipelines deleted are
exactly the target-workspace items of type `datapipeline` whose display
name appears in the REPOSITORY pipeline catalog (not "present in target
but absent from the repository"), and they are deleted in the reverse
of the `Repository`-mode publish order (not a `Deployed`-mode sort), so
every referrer is still deleted before what it references: for deployed
`{Child, Parent}` with `Parent` referencing `Child` the deletion order
is `[Parent, Child]`. -/
theorem delete_old_items_amended (items : List WorkspaceItem)
    (repoPipes : List (String × List String))
    (hnd : (pipeKeys repoPipes).Nodup)
    (hcl : closedRefs repoPipes = true)
    (hac : Acyclic repoPipes) :
    ∃ env pd, delete_old_items items repoPipes = Except.ok (env, pd) ∧
      env = (items.filter
        (fun it => lowerStr it.itemType == "environment")).map (fun it => it.displayName) ∧
      (∀ n, n ∈ pd ↔ (n ∈ pipeKeys repoPipes ∧ isDeployedPipeline items n = true)) ∧
      (∀ r t, r ∈ refsOf repoPipes t → t ∈ pd → r ∈ pd → Before pd t r) := by
  obtain ⟨s, hok, hperm, htopo⟩ := sort_repository_spec repoPipes hnd hcl hac
  refine ⟨_, s.reverse.filter (isDeployedPipeline items), ?_, rfl, ?_, ?_⟩
  · simp only [delete_old_items]
    rw [hok]
  · intro n
    rw [List.mem_filter, List.mem_reverse]
    constructor
    · rintro ⟨h1, h2⟩
      exact ⟨hperm.subset h1, h2⟩
    · rintro ⟨h1, h2⟩
      exact ⟨hperm.symm.subset h1, h2⟩
  · intro r t hrt htp hrp
    have hb : Before s r t := htopo r t hrt
    have hbr : Before s.reverse t r := Before_reverse hb
    exact Before_filter hbr (List.mem_filter.mp htp).2 (List.mem_filter.mp hrp).2

/-- Witness for the amended C3 at the spec's scenario: deployed
`{Child, Parent}` where `Parent` references `Child`. -/
theorem delete_old_items_amended_witness :
    ∃ env pd, delete_old_items
        [⟨"Child", "DataPipeline", "c1"⟩, ⟨"Parent", "DataPipeline", "p1"⟩]
        [("Child", []), ("Parent", ["Child"])] = Except.ok (env, pd) ∧
      env = ([⟨"Child", "DataPipeline", "c1"⟩,
        (⟨"Parent", "DataPipeline", "p1"⟩ : WorkspaceItem)].filter
        (fun it => lowerStr it.itemType == "environment")).map (fun it => it.displayName) ∧
      (∀ n, n ∈ pd ↔ (n ∈ pipeKeys [("Child", []), ("Parent", ["Child"])] ∧
        isDeployedPipeline
          [⟨"Child", "DataPipeline", "c1"⟩, ⟨"Parent", "DataPipeline", "p1"⟩] n = true)) ∧
      (∀ r t, r ∈ refsOf [("Child", []), ("Parent", ["Child"])] t →
        t ∈ pd → r ∈ pd → Before pd t r) :=
  delete_old_items_amended _ _ (by decide) (by decide)
    ⟨fun x => if x = "Child" then 0 else 1, by
      intro r t hrt
      rw [refsOf, listGet_cons, listGet_cons] at hrt
      by_cases h1 : t = "Child"
      · rw [if_pos (by simp [h1])] at hrt
        simp at hrt
      · rw [if_neg (by simp; exact fun hc => h1 hc.symm)] at hrt
        by_cases h2 : t = "Parent"
        · rw [if_pos (by simp [h2])] at hrt
          simp only [Option.getD_some, List.mem_singleton] at hrt
          subst hrt
          subst h2
          decide
        · rw [if_neg (by simp; exact fun hc => h2 hc.symm)] at hrt
          simp at hrt⟩

/-! ## Reference rewriting (`replace_logical_ids`)

Python strings are modelled as `List Char`; `str.replace` and the `in`
operator are implemented below with Python's semantics (left-to-right
scan, non-overlapping replacement). -/

/-- Is `p` a prefix of `s`? -/
def pref : List Char → List Char → Bool
  | [], _ => true
  | _ :: _, [] => false
  | c :: p, d :: s => c == d && pref p s

/-- Substring occurrence, as Python `pat in s`. -/
def subOcc (pat : List Char) : List Char → Bool
  | [] => pat.isEmpty
  | c :: rest => pref pat (c :: rest) || subOcc pat rest

/-- Scanner of Python `s.replace(pat, rep)` for a nonempty pattern
`c0 :: cp`: at each position, if the pattern matches, emit `rep`,
discard the rest of the match (the skip counter) and resume after it;
otherwise keep the character and move on.  The skip counter makes the
recursion structural on the text. -/
def replaceGo (c0 : Char) (cp rep : List Char) : Nat → List Char → List Char
  | _, [] => []
  | n + 1, _ :: rest => replaceGo c0 cp rep n rest
  | 0, c :: rest =>
    if pref (c0 :: cp) (c :: rest) then rep ++ replaceGo c0 cp rep cp.length rest
    else c :: replaceGo c0 cp rep 0 rest

/-- Python `s.replace(pat, rep)`.  The source only calls it with a
nonempty pattern (`if logical_id` guards the empty string). -/
def replaceL (pat rep s : List Char) : List Char :=
  match pat with
  | [] => s
  | c0 :: cp => replaceGo c0 cp rep 0 s

/-- Number of occurrences counted the way `replace` consumes them:
left to right, non-overlapping. -/
def countGo (c0 : Char) (cp : List Char) : Nat → List Char → Nat
  | _, [] => 0
  | n + 1, _ :: rest => countGo c0 cp n rest
  | 0, c :: rest =>
    if pref (c0 :: cp) (c :: rest) then 1 + countGo c0 cp cp.length rest
    else countGo c0 cp 0 rest

def countOcc (pat s : List Char) : Nat :=
  match pat with
  | [] => 0
  | c0 :: cp => countGo c0 cp 0 s

theorem replaceGo_skip (c0 : Char) (cp rep : List Char) :
    ∀ (n : Nat) (s : List Char),
      replaceGo c0 cp rep n s = replaceGo c0 cp rep 0 (s.drop n) := by
  intro n
  induction n with
  | zero => intro s; rfl
  | succ n ih =>
    intro s
    cases s with
    | nil => rfl
    | cons c rest =>
      show replaceGo c0 cp rep n rest = _
      rw [ih rest]
      rfl

theorem countGo_skip (c0 : Char) (cp : List Char) :
    ∀ (n : Nat) (s : List Char), countGo c0 cp n s = countGo c0 cp 0 (s.drop n) := by
  intro n
  induction n with
  | zero => intro s; rfl
  | succ n ih =>
    intro s
    cases s with
    | nil => rfl
    | cons c rest =>
      show countGo c0 cp n rest = _
      rw [ih rest]
      rfl

/-- The usual one-step unfolding of the replacement scan. -/
theorem replaceGo_cons_eq (c0 : Char) (cp rep : List Char) (c : Char) (rest : List Char) :
    replaceGo c0 cp rep 0 (c :: rest)
      = if pref (c0 :: cp) (c :: rest) = true
        then rep ++ replaceGo c0 cp rep 0 (rest.drop cp.length)
        else c :: replaceGo c0 cp rep 0 rest := by
  show (if pref (c0 :: cp) (c :: rest) = true
      then rep ++ replaceGo c0 cp rep cp.length rest
      else c :: replaceGo c0 cp rep 0 rest) = _
  rw [replaceGo_skip]

theorem countGo_cons_eq (c0 : Char) (cp : List Char) (c : Char) (rest : List Char) :
    countGo c0 cp 0 (c :: rest)
      = if pref (c0 :: cp) (c :: rest) = true
        then 1 + countGo c0 cp 0 (rest.drop cp.length)
        else countGo c0 cp 0 rest := by
  show (if pref (c0 :: cp) (c :: rest) = true
      then 1 + countGo c0 cp cp.length rest
      else countGo c0 cp 0 rest) = _
  rw [countGo_skip]

/-- `rep` has no border: no proper nonempty prefix is also a suffix. -/
def Unbordered (rep : List Char) : Prop :=
  ∀ k, k < rep.length → 0 < k → rep.take k ≠ rep.drop (rep.length - k)

instance (rep : List Char) : Decidable (Unbordered rep) := by
  unfold Unbordered
  infer_instance

/-- The reserved all-zero placeholder id replaced with the destination
workspace id (`workspace_item_utilities.py:703`). -/
def zeroGuid : List Char := "00000000-0000-0000-0000-000000000000".data

/-- The wrapped error text of `workspace_item_utilities.py:699/709`. -/
def notDeployedMsg (logical_id : List Char) : String :=
  "Error during repository items list retrieval or logical ID replacement: Item with logical ID "
    ++ String.mk logical_id ++ " is not yet deployed."

/-- `replace_logical_ids` (`workspace_item_utilities.py:670-709`).  The
catalog is the flattened iteration over `repository_items` — pairs of
`logical_id` and resolved `guid` (empty when the item is not yet
deployed); file-system and API retrieval of that catalog is outside the
model.  For every entry whose nonempty logical id occurs in the text, a
missing guid is a fatal error, otherwise all occurrences are replaced;
finally the all-zero placeholder is replaced by the workspace id. -/
def replace_logical_ids (catalog : List (List Char × List Char))
    (workspace_id : List Char) (raw_file : List Char) : Except String (List Char) :=
  match catalog with
  | [] => Except.ok (replaceL zeroGuid workspace_id raw_file)
  | (logical_id, item_guid) :: rest =>
    if logical_id ≠ [] ∧ subOcc logical_id raw_file = true then
      if item_guid = [] then Except.error (notDeployedMsg logical_id)
      else replace_logical_ids rest workspace_id (replaceL logical_id item_guid raw_file)
    else replace_logical_ids rest workspace_id raw_file

/-! ### Facts about prefix, occurrence and replacement -/

theorem pref_iff (p s : List Char) : pref p s = true ↔ ∃ t, s = p ++ t := by
  induction p generalizing s with
  | nil =>
    simp [pref]
  | cons c p ih =>
    cases s with
    | nil =>
      simp [pref]
    | cons d s =>
      rw [show pref (c :: p) (d :: s) = (c == d && pref p s) from rfl,
        Bool.and_eq_true, beq_iff_eq, ih]
      constructor
      · rintro ⟨rfl, t, rfl⟩
        exact ⟨t, rfl⟩
      · rintro ⟨t, he⟩
        injection he with h1 h2
        exact ⟨h1.symm, t, h2⟩

theorem pref_append_self (p t : List Char) : pref p (p ++ t) = true :=
  (pref_iff p _).mpr ⟨t, rfl⟩

theorem pref_drop {p s : List Char} (h : pref p s = true) :
    s = p ++ s.drop p.length := by
  obtain ⟨t, rfl⟩ := (pref_iff p s).mp h
  rw [List.drop_left]

theorem subOcc_iff (pat s : List Char) :
    subOcc pat s = true ↔ ∃ a b, s = a ++ pat ++ b := by
  induction s with
  | nil =>
    rw [show subOcc pat [] = pat.isEmpty from rfl]
    constructor
    · intro h
      have : pat = [] := by
        cases pat
        · rfl
        · simp at h
      exact ⟨[], [], by simp [this]⟩
    · rintro ⟨a, b, he⟩
      have hl := congrArg List.length he
      simp only [List.length_nil, List.length_append] at hl
      have : pat = [] := List.length_eq_zero.mp (by omega)
      simp [this]
  | cons c rest ih =>
    rw [show subOcc pat (c :: rest) = (pref pat (c :: rest) || subOcc pat rest) from rfl,
      Bool.or_eq_true, ih, pref_iff]
    constructor
    · rintro (⟨t, he⟩ | ⟨a, b, rfl⟩)
      · exact ⟨[], t, by simpa using he⟩
      · exact ⟨c :: a, b, rfl⟩
    · rintro ⟨a, b, he⟩
      cases a with
      | nil =>
        exact Or.inl ⟨b, by simpa using he⟩
      | cons a0 a' =>
        injection he with h1 h2
        exact Or.inr ⟨a', b, h2⟩

theorem subOcc_append_right {p : List Char} (x : List Char) {R : List Char}
    (h : subOcc p R = true) : subOcc p (x ++ R) = true := by
  induction x with
  | nil => simpa
  | cons c x ih =>
    rw [List.cons_append,
      show subOcc p (c :: (x ++ R)) = (pref p (c :: (x ++ R)) || subOcc p (x ++ R)) from rfl,
      Bool.or_eq_true]
    exact Or.inr ih

theorem subOcc_pattern_head {m e s : List Char} (h : subOcc (m ++ e) s = true) :
    subOcc m s = true := by
  rw [subOcc_iff] at h ⊢
  obtain ⟨a, b, rfl⟩ := h
  exact ⟨a, e ++ b, by simp⟩

theorem subOcc_cons_false {p : List Char} {c : Char} {rest : List Char}
    (h : subOcc p (c :: rest) = false) :
    pref p (c :: rest) = false ∧ subOcc p rest = false :=
  Bool.or_eq_false_iff.mp
    (by rw [show subOcc p (c :: rest) = (pref p (c :: rest) || subOcc p rest) from rfl] at h
        exact h)

theorem subOcc_append_left_disjoint {c0 : Char} {cp : List Char}
    (x : List Char) (hd : ∀ ch ∈ x, ch ∉ (c0 :: cp)) (R : List Char) :
    subOcc (c0 :: cp) (x ++ R) = subOcc (c0 :: cp) R := by
  induction x with
  | nil => rfl
  | cons c x ih =>
    rw [List.cons_append,
      show subOcc (c0 :: cp) (c :: (x ++ R))
        = (pref (c0 :: cp) (c :: (x ++ R)) || subOcc (c0 :: cp) (x ++ R)) from rfl]
    have hpre : pref (c0 :: cp) (c :: (x ++ R)) = false := by
      rw [show pref (c0 :: cp) (c :: (x ++ R)) = (c0 == c && pref cp (x ++ R)) from rfl]
      have hne : (c0 == c) = false := by
        simp only [beq_eq_false_iff_ne, ne_eq]
        intro he
        exact hd c (by simp) (by rw [← he]; simp)
      rw [hne]
      simp
    rw [hpre, Bool.false_or]
    exact ih (fun ch hch => hd ch (by simp [hch]))

theorem suffix_tail {q0 : Char} {q' l : List Char} (h : (q0 :: q') <:+ l) : q' <:+ l := by
  obtain ⟨u, rfl⟩ := h
  exact ⟨u ++ [q0], by simp⟩

theorem mem_of_suffix_head {q0 : Char} {q' l : List Char} (h : (q0 :: q') <:+ l) : q0 ∈ l := by
  obtain ⟨u, rfl⟩ := h
  simp

theorem pref_append_of_le {q x R : List Char} (h : pref q (x ++ R) = true)
    (hle : q.length ≤ x.length) : pref q x = true := by
  induction q generalizing x with
  | nil => rfl
  | cons q0 q' ih =>
    cases x with
    | nil => simp at hle
    | cons x0 x' =>
      rw [List.cons_append,
        show pref (q0 :: q') (x0 :: (x' ++ R)) = (q0 == x0 && pref q' (x' ++ R)) from rfl,
        Bool.and_eq_true] at h
      rw [show pref (q0 :: q') (x0 :: x') = (q0 == x0 && pref q' x') from rfl,
        Bool.and_eq_true]
      exact ⟨h.1, ih h.2 (by simpa using hle)⟩

theorem Unbordered.no_border {rep q : List Char} (hub : Unbordered rep) (hne : q ≠ [])
    (hqr : q ≠ rep) (hsuf : q <:+ rep) (hpre : q <+: rep) : False := by
  have hlen : q.length ≤ rep.length := hpre.length_le
  have hlt : q.length < rep.length := lt_of_le_of_ne hlen (by
    intro he
    exact hqr (List.IsPrefix.eq_of_length hpre he))
  have hpos : 0 < q.length := List.length_pos.mpr hne
  have h1 : q = rep.take q.length := List.prefix_iff_eq_take.mp hpre
  have h2 : q = rep.drop (rep.length - q.length) := List.suffix_iff_eq_drop.mp hsuf
  exact hub q.length hlt hpos (by rw [← h1, ← h2])

/-- A nonempty suffix of `rep` that is a prefix of the replacement
output either matches original text or is the whole of `rep` sitting at
an inserted position. -/
theorem q_suffix_pref_replace (c0 : Char) (cp rep : List Char) (_hr : rep ≠ [])
    (hub : Unbordered rep) :
    ∀ (t q : List Char), q ≠ [] → q <:+ rep →
      pref q (replaceGo c0 cp rep 0 t) = true →
      pref q t = true ∨ (q = rep ∧ pref (c0 :: cp) t = true) := by
  intro t
  induction t with
  | nil =>
    intro q hne _ hpre
    rw [show replaceGo c0 cp rep 0 [] = [] from rfl] at hpre
    cases q with
    | nil => exact absurd rfl hne
    | cons q0 q' => simp [pref] at hpre
  | cons c rest ih =>
    intro q hne hsuf hpre
    rw [replaceGo_cons_eq] at hpre
    by_cases hm : pref (c0 :: cp) (c :: rest) = true
    · rw [if_pos hm] at hpre
      have hql : q.length ≤ rep.length := hsuf.length_le
      have hqrep : pref q rep = true := pref_append_of_le hpre hql
      by_cases hqe : q = rep
      · exact Or.inr ⟨hqe, hm⟩
      · obtain ⟨u, hu⟩ := (pref_iff q rep).mp hqrep
        exact absurd (hub.no_border hne hqe hsuf ⟨u, hu.symm⟩) (fun h => h)
    · rw [if_neg hm] at hpre
      cases q with
      | nil => exact absurd rfl hne
      | cons q0 q' =>
        rw [show pref (q0 :: q') (c :: replaceGo c0 cp rep 0 rest)
          = (q0 == c && pref q' (replaceGo c0 cp rep 0 rest)) from rfl,
          Bool.and_eq_true] at hpre
        by_cases hq' : q' = []
        · subst hq'
          left
          rw [show pref [q0] (c :: rest) = (q0 == c && pref [] rest) from rfl,
            Bool.and_eq_true]
          exact ⟨hpre.1, rfl⟩
        · have hsuf' : q' <:+ rep := suffix_tail hsuf
          rcases ih q' hq' hsuf' hpre.2 with h | ⟨hqe, _⟩
          · left
            rw [show pref (q0 :: q') (c :: rest) = (q0 == c && pref q' rest) from rfl,
              Bool.and_eq_true]
            exact ⟨hpre.1, h⟩
          · exfalso
            have hle := hsuf.length_le
            rw [hqe] at hle
            simp at hle

/-- A full `rep` prefix of the replacement output only happens where
the pattern matched the original text. -/
theorem rep_pref_replace (c0 : Char) (cp rep : List Char) (hr : rep ≠ [])
    (hub : Unbordered rep) :
    ∀ t : List Char, subOcc rep t = false →
      pref rep (replaceGo c0 cp rep 0 t) = true → pref (c0 :: cp) t = true := by
  intro t hocc hpre
  cases t with
  | nil =>
    rw [show replaceGo c0 cp rep 0 [] = [] from rfl] at hpre
    cases rep with
    | nil => exact absurd rfl hr
    | cons r0 rp => simp [pref] at hpre
  | cons c rest =>
    rw [replaceGo_cons_eq] at hpre
    by_cases hm : pref (c0 :: cp) (c :: rest) = true
    · exact hm
    · rw [if_neg hm] at hpre
      cases rep with
      | nil => exact absurd rfl hr
      | cons r0 rp =>
        rw [show pref (r0 :: rp) (c :: replaceGo c0 cp (r0 :: rp) 0 rest)
          = (r0 == c && pref rp (replaceGo c0 cp (r0 :: rp) 0 rest)) from rfl,
          Bool.and_eq_true] at hpre
        by_cases hre : rp = []
        · exfalso
          subst hre
          have hp1 : pref [r0] (c :: rest) = true := by
            rw [show pref [r0] (c :: rest) = (r0 == c && pref [] rest) from rfl,
              Bool.and_eq_true]
            exact ⟨hpre.1, rfl⟩
          have hso : subOcc [r0] (c :: rest) = true := by
            rw [show subOcc [r0] (c :: rest) = (pref [r0] (c :: rest) || subOcc [r0] rest) from rfl,
              hp1]
            rfl
          rw [hso] at hocc
          exact Bool.true_eq_false.mp hocc
        · have hsuf : rp <:+ (r0 :: rp) := ⟨[r0], rfl⟩
          rcases q_suffix_pref_replace c0 cp (r0 :: rp) hr hub rest rp hre hsuf hpre.2 with h | ⟨hqe, _⟩
          · exfalso
            have hfull : pref (r0 :: rp) (c :: rest) = true := by
              rw [show pref (r0 :: rp) (c :: rest) = (r0 == c && pref rp rest) from rfl,
                Bool.and_eq_true]
              exact ⟨hpre.1, h⟩
            have hso : subOcc (r0 :: rp) (c :: rest) = true := by
              rw [show subOcc (r0 :: rp) (c :: rest)
                = (pref (r0 :: rp) (c :: rest) || subOcc (r0 :: rp) rest) from rfl, hfull]
              rfl
            rw [hso] at hocc
            exact Bool.true_eq_false.mp hocc
          · exfalso
            have hcontra : (r0 :: rp).length ≤ rp.length := by
              conv_lhs => rw [← hqe]
            simp at hcontra

theorem countOcc_self_head (p R : List Char) (hp : p ≠ []) :
    countOcc p (p ++ R) = 1 + countOcc p R := by
  cases p with
  | nil => exact absurd rfl hp
  | cons c0 cp =>
    show countGo c0 cp 0 (c0 :: (cp ++ R)) = 1 + countGo c0 cp 0 R
    have hpre : pref (c0 :: cp) (c0 :: (cp ++ R)) = true := by
      have := pref_append_self (c0 :: cp) R
      rwa [List.cons_append] at this
    rw [countGo_cons_eq, if_pos hpre, List.drop_left]

/-- Occurrence count of the replacement string in the output equals the
number of replaced pattern matches, provided the replacement is
unbordered and absent from the input. -/
theorem countGo_rep_replace (c0 : Char) (cp rep : List Char) (hr : rep ≠ [])
    (hub : Unbordered rep) :
    ∀ (n : Nat) (s : List Char), s.length ≤ n → subOcc rep s = false →
      countOcc rep (replaceGo c0 cp rep 0 s) = countGo c0 cp 0 s := by
  intro n
  induction n with
  | zero =>
    intro s hlen _
    have hs : s = [] := List.length_eq_zero.mp (by omega)
    subst hs
    rw [show replaceGo c0 cp rep 0 [] = [] from rfl,
      show countGo c0 cp 0 ([] : List Char) = 0 from rfl]
    cases rep with
    | nil => rfl
    | cons r0 rp => rfl
  | succ n ihn =>
    intro s hlen hocc
    cases s with
    | nil =>
      rw [show replaceGo c0 cp rep 0 [] = [] from rfl,
        show countGo c0 cp 0 ([] : List Char) = 0 from rfl]
      cases rep with
      | nil => rfl
      | cons r0 rp => rfl
    | cons c rest =>
      rw [replaceGo_cons_eq, countGo_cons_eq]
      by_cases hm : pref (c0 :: cp) (c :: rest) = true
      · rw [if_pos hm, if_pos hm]
        have hsplit : (c :: rest) = (c0 :: cp) ++ rest.drop cp.length := by
          have := pref_drop hm
          simpa using this
        have hocc2 : subOcc rep (rest.drop cp.length) = false := by
          by_contra hcc
          simp only [Bool.not_eq_false] at hcc
          have hso : subOcc rep (c :: rest) = true := by
            rw [hsplit]
            exact subOcc_append_right _ hcc
          rw [hso] at hocc
          exact Bool.true_eq_false.mp hocc
        have hlen2 : (rest.drop cp.length).length ≤ n := by
          simp only [List.length_cons] at hlen
          have := List.length_drop cp.length rest
          omega
        rw [countOcc_self_head rep _ hr, ihn _ hlen2 hocc2]
      · rw [if_neg hm, if_neg hm]
        cases rep with
        | nil => exact absurd rfl hr
        | cons r0 rp =>
          show countGo r0 rp 0 (c :: replaceGo c0 cp (r0 :: rp) 0 rest) = countGo c0 cp 0 rest
          have hnp : pref (r0 :: rp) (c :: replaceGo c0 cp (r0 :: rp) 0 rest) = false := by
            by_contra hcc
            simp only [Bool.not_eq_false] at hcc
            have heq : (c :: replaceGo c0 cp (r0 :: rp) 0 rest)
                = replaceGo c0 cp (r0 :: rp) 0 (c :: rest) := by
              rw [replaceGo_cons_eq, if_neg hm]
            rw [heq] at hcc
            exact hm (rep_pref_replace c0 cp (r0 :: rp) hr hub (c :: rest) hocc hcc)
          rw [countGo_cons_eq, if_neg (by simp [hnp])]
          have hocc2 : subOcc (r0 :: rp) rest = false := (subOcc_cons_false hocc).2
          have hlen2 : rest.length ≤ n := by
            simp only [List.length_cons] at hlen
            omega
          exact ihn rest hlen2 hocc2

/-- A nonempty suffix of the (character-disjoint) pattern that is a
prefix of the replacement output matches the original text. -/
theorem q_suffix_pat_replace (c0 : Char) (cp rep : List Char) (hr : rep ≠ [])
    (hd : ∀ ch ∈ rep, ch ∉ (c0 :: cp)) :
    ∀ (t q : List Char), q ≠ [] → q <:+ (c0 :: cp) →
      pref q (replaceGo c0 cp rep 0 t) = true → pref q t = true := by
  intro t
  induction t with
  | nil =>
    intro q hne _ hpre
    rw [show replaceGo c0 cp rep 0 [] = [] from rfl] at hpre
    cases q with
    | nil => exact absurd rfl hne
    | cons q0 q' => simp [pref] at hpre
  | cons c rest ih =>
    intro q hne hsuf hpre
    rw [replaceGo_cons_eq] at hpre
    by_cases hm : pref (c0 :: cp) (c :: rest) = true
    · exfalso
      cases q with
      | nil => exact hne rfl
      | cons q0 q' =>
        rw [if_pos hm] at hpre
        cases rep with
        | nil => exact hr rfl
        | cons rr0 rp =>
          rw [List.cons_append,
            show pref (q0 :: q')
                (rr0 :: (rp ++ replaceGo c0 cp (rr0 :: rp) 0 (rest.drop cp.length)))
              = (q0 == rr0
                && pref q' (rp ++ replaceGo c0 cp (rr0 :: rp) 0 (rest.drop cp.length)))
              from rfl,
            Bool.and_eq_true] at hpre
          have hq0 : q0 ∈ (c0 :: cp) := mem_of_suffix_head hsuf
          have hq0r : q0 = rr0 := eq_of_beq hpre.1
          exact hd rr0 (by simp) (hq0r ▸ hq0)
    · rw [if_neg hm] at hpre
      cases q with
      | nil => exact absurd rfl hne
      | cons q0 q' =>
        rw [show pref (q0 :: q') (c :: replaceGo c0 cp rep 0 rest)
          = (q0 == c && pref q' (replaceGo c0 cp rep 0 rest)) from rfl,
          Bool.and_eq_true] at hpre
        by_cases hq' : q' = []
        · subst hq'
          rw [show pref [q0] (c :: rest) = (q0 == c && pref [] rest) from rfl,
            Bool.and_eq_true]
          exact ⟨hpre.1, rfl⟩
        · have hrec := ih q' hq' (suffix_tail hsuf) hpre.2
          rw [show pref (q0 :: q') (c :: rest) = (q0 == c && pref q' rest) from rfl,
            Bool.and_eq_true]
          exact ⟨hpre.1, hrec⟩

/-- After replacing it by a nonempty replacement sharing no character
with it, the pattern no longer occurs. -/
theorem subOcc_pat_replace (c0 : Char) (cp rep : List Char) (hr : rep ≠ [])
    (hd : ∀ ch ∈ rep, ch ∉ (c0 :: cp)) :
    ∀ (n : Nat) (s : List Char), s.length ≤ n →
      subOcc (c0 :: cp) (replaceGo c0 cp rep 0 s) = false := by
  intro n
  induction n with
  | zero =>
    intro s hlen
    have hs : s = [] := List.length_eq_zero.mp (by omega)
    subst hs
    rfl
  | succ n ihn =>
    intro s hlen
    cases s with
    | nil => rfl
    | cons c rest =>
      rw [replaceGo_cons_eq]
      by_cases hm : pref (c0 :: cp) (c :: rest) = true
      · rw [if_pos hm]
        rw [subOcc_append_left_disjoint rep hd _]
        have hlen2 : (rest.drop cp.length).length ≤ n := by
          simp only [List.length_cons] at hlen
          have := List.length_drop cp.length rest
          omega
        exact ihn _ hlen2
      · rw [if_neg hm]
        rw [show subOcc (c0 :: cp) (c :: replaceGo c0 cp rep 0 rest)
          = (pref (c0 :: cp) (c :: replaceGo c0 cp rep 0 rest)
            || subOcc (c0 :: cp) (replaceGo c0 cp rep 0 rest)) from rfl]
        have h1 : pref (c0 :: cp) (c :: replaceGo c0 cp rep 0 rest) = false := by
          by_contra hcc
          simp only [Bool.not_eq_false] at hcc
          have heq : (c :: replaceGo c0 cp rep 0 rest)
              = replaceGo c0 cp rep 0 (c :: rest) := by
            rw [replaceGo_cons_eq, if_neg hm]
          rw [heq] at hcc
          exact hm (q_suffix_pat_replace c0 cp rep hr hd (c :: rest) (c0 :: cp)
            (by simp) (List.suffix_refl _) hcc)
        rw [h1, Bool.false_or]
        exact ihn rest (by simp only [List.length_cons] at hlen; omega)

theorem replaceGo_not_occ (c0 : Char) (cp rep : List Char) :
    ∀ s : List Char, subOcc (c0 :: cp) s = false → replaceGo c0 cp rep 0 s = s := by
  intro s
  induction s with
  | nil =>
    intro _
    rfl
  | cons c rest ih =>
    intro h
    obtain ⟨h1, h2⟩ := subOcc_cons_false h
    rw [replaceGo_cons_eq, if_neg (by simp [h1]), ih h2]

theorem replaceL_not_occ {pat rep s : List Char} (h : subOcc pat s = false) :
    replaceL pat rep s = s := by
  cases pat with
  | nil => rfl
  | cons c0 cp => exact replaceGo_not_occ c0 cp rep s h

theorem countOcc_eq_zero (pat s : List Char) (h : subOcc pat s = false) :
    countOcc pat s = 0 := by
  cases pat with
  | nil => rfl
  | cons c0 cp =>
    show countGo c0 cp 0 s = 0
    induction s with
    | nil => rfl
    | cons c rest ih =>
      obtain ⟨h1, h2⟩ := subOcc_cons_false h
      rw [countGo_cons_eq, if_neg (by simp [h1])]
      exact ih h2

/-! ### Claim theorems for the rewriter -/

/-- C4 counterexample: a catalog entry whose resolved id `zab` contains
its own logical id `ab` as a substring.  The text `ab` has one
occurrence of the logical id; after the rewrite the output `zab` still
contains one occurrence of it, not zero, so the claim as stated (for
every text and catalog) is false. -/
theorem replace_logical_ids_counterexample :
    replace_logical_ids [("ab".data, "zab".data)] "w".data "ab".data
        = Except.ok "zab".data ∧
    countOcc "ab".data "ab".data = 1 ∧
    countOcc "ab".data "zab".data = 1 := by
  refine ⟨rfl, rfl, rfl⟩

/-- C4 amended: reference rewriting is exhaustive and exact for opaque,
non-overlapping tokens.  For a catalog entry with nonempty logical id
`L` occurring in the text and nonempty resolved id `G`, provided the
tokens do not interfere — no character of `G` occurs in `L`, `G` is
unbordered and does not already occur in the text, and the all-zero
workspace placeholder does not occur in the rewritten text — the
rewritten output has zero occurrences of `L` and exactly `N`
occurrences of `G`, where `N` is the number of occurrences of `L` in
the input. -/
theorem replace_logical_ids_amended (L G wsid raw : List Char)
    (hL : L ≠ []) (hG : G ≠ [])
    (hocc : subOcc L raw = true)
    (hdisj : ∀ ch ∈ G, ch ∉ L)
    (hub : Unbordered G)
    (hGnew : subOcc G raw = false)
    (hzero : subOcc zeroGuid (replaceL L G raw) = false) :
    replace_logical_ids [(L, G)] wsid raw = Except.ok (replaceL L G raw) ∧
    countOcc L (replaceL L G raw) = 0 ∧
    countOcc G (replaceL L G raw) = countOcc L raw := by
  cases L with
  | nil => exact absurd rfl hL
  | cons c0 cp =>
    refine ⟨?_, ?_, ?_⟩
    · simp only [replace_logical_ids]
      rw [if_pos ⟨by simp, hocc⟩, if_neg hG]
      rw [replaceL_not_occ hzero]
    · exact countOcc_eq_zero _ _
        (subOcc_pat_replace c0 cp G hG hdisj raw.length raw (le_refl _))
    · exact countGo_rep_replace c0 cp G hG hub raw.length raw (le_refl _) hGnew

/-- Witness for the amended C4: logical id `lid1` occurring twice,
resolved id `GXY` (no shared characters, unbordered, absent from the
text). -/
theorem replace_logical_ids_amended_witness :
    replace_logical_ids [("lid1".data, "GXY".data)] "w".data "xx lid1 yy lid1 z".data
        = Except.ok (replaceL "lid1".data "GXY".data "xx lid1 yy lid1 z".data) ∧
    countOcc "lid1".data (replaceL "lid1".data "GXY".data "xx lid1 yy lid1 z".data) = 0 ∧
    countOcc "GXY".data (replaceL "lid1".data "GXY".data "xx lid1 yy lid1 z".data)
        = countOcc "lid1".data "xx lid1 yy lid1 z".data :=
  replace_logical_ids_amended _ _ _ _ (by decide) (by decide) (by decide) (by decide)
    (by decide) (by decide) (by decide)

/-- C5: if a catalog entry's nonempty logical id occurs in the
definition text but its runtime id is not yet resolved (empty), the
rewrite fails with the fatal not-yet-deployed error instead of
producing output. -/
theorem replace_logical_ids_not_deployed (L : List Char)
    (rest : List (List Char × List Char)) (wsid raw : List Char)
    (hL : L ≠ []) (hocc : subOcc L raw = true) :
    replace_logical_ids ((L, []) :: rest) wsid raw
      = Except.error (notDeployedMsg L) := by
  simp only [replace_logical_ids]
  rw [if_pos ⟨hL, hocc⟩, if_pos trivial]

/-- Witness for C5 at the spec's scenario: rewriting Parent's
definition, which references Child's logical id, before Child is
deployed (empty guid). -/
theorem replace_logical_ids_not_deployed_witness :
    replace_logical_ids [("child-lid".data, "".data)] "w".data
        "invoke pipeline child-lid now".data
      = Except.error (notDeployedMsg "child-lid".data) :=
  replace_logical_ids_not_deployed _ _ _ _ (by decide) (by decide)

/-! ## The deployment ledger (`guids`) -/

/-- One entry of the `guids` ledger
(`workspace_item_utilities.py:599,603,607,1205,1209` and the seed at
`1805`). -/
structure DeploymentRecord where
  artifact_type : String
  artifact_name : String
  artifact_location_guid : Option String
  artifact_location_name : Option String
  artifact_guid : String
deriving DecidableEq

/-- The seed record of `deploy_artifacts`
(`workspace_item_utilities.py:1805`). -/
def workspaceRecord (workspace_name workspace_id : String) : DeploymentRecord :=
  ⟨"Workspace", workspace_name, none, none, workspace_id⟩

/-- `existing_items = {f"{item['displayName']}.{item['type']}": item for
item in items}` (`workspace_item_utilities.py:1804`). -/
def existingItemsMap (items : List WorkspaceItem) : List (String × WorkspaceItem) :=
  items.foldl (fun m it => listSet m (it.displayName ++ "." ++ it.itemType) it) []

/-- `create_notebook` (`workspace_item_utilities.py:524-610`), reduced to
its ledger effect.  The HTTP outcome is injected: `status` is the
response status and `response_id` the id carried by the response body
(for `202`, by `handle_async_creation`).  A `200` response (the
update-in-place branch) records the existing item's id; `201`/`202`
record `response_id`; every other status raises.  Python appends to the
`guids` list in place; the model returns the extended ledger. -/
def create_notebook (workspace_id workspace_name notebook_name : String)
    (existing_items : List (String × WorkspaceItem))
    (guids : List DeploymentRecord) (status : Nat) (response_id : String) :
    Except String (List DeploymentRecord) :=
  if status = 200 then
    match listGet existing_items (notebook_name ++ ".Notebook") with
    | some it =>
      Except.ok (guids ++
        [⟨"Notebook", notebook_name, some workspace_id, some workspace_name, it.id⟩])
    | none => Except.error "Request error while creating notebook: KeyError"
  else if status = 201 ∨ status = 202 then
    Except.ok (guids ++
      [⟨"Notebook", notebook_name, some workspace_id, some workspace_name, response_id⟩])
  else Except.error "Failed to create notebook"

/-- `create_data_pipeline` (`workspace_item_utilities.py:1103-1217`),
reduced to its ledger effect: a `201`/`202` response appends one
`DataPipeline` record, anything else raises.  There is no lookup of
existing items at all. -/
def create_data_pipeline (item_name workspace_id workspace_name : String)
    (guids : List DeploymentRecord) (status : Nat) (response_id : String) :
    Except String (List DeploymentRecord) :=
  if status = 201 ∨ status = 202 then
    Except.ok (guids ++
      [⟨"DataPipeline", item_name, some workspace_id, some workspace_name, response_id⟩])
  else Except.error "Failed to create pipeline"

/-- `create_lakehouse` (`workspace_item_utilities.py:480-522`): returns
the response body (modelled as the `displayName`/`id` pair) on
`201`/`202` and raises otherwise.  Note that the function has no
`guids` parameter in the source: it cannot touch the ledger. -/
def create_lakehouse (lakehouse_name : String) (status : Nat)
    (response : String × String) : Except String (String × String) :=
  if status = 201 ∨ status = 202 then Except.ok response
  else Except.error ("Failed to create lakehouse " ++ lakehouse_name)

/-- `create_eventhouse` (`workspace_item_utilities.py:1665-1708`): same
shape as `create_lakehouse`, again with no `guids` parameter. -/
def create_eventhouse (eventhouse_name : String) (status : Nat)
    (response : String × String) : Except String (String × String) :=
  if status = 201 ∨ status = 202 then Except.ok response
  else Except.error ("Failed to create eventhouse " ++ eventhouse_name)

/-- `deploy_lakehouse` (`workspace_item_utilities.py:1340-1405`): one
`create_lakehouse` per repository lakehouse (name, injected status and
response), collecting `lakehouse_dict[displayName] = id`.  No ledger is
threaded anywhere. -/
def deploy_lakehouse (runs : List (String × Nat × String × String)) :
    Except String (List (String × String)) :=
  runs.foldl
    (fun acc run =>
      match acc with
      | Except.error e => Except.error e
      | Except.ok dict =>
        match create_lakehouse run.1 run.2.1 (run.2.2.1, run.2.2.2) with
        | Except.error e => Except.error ("Error processing lakehouse: " ++ e)
        | Except.ok r => Except.ok (listSet dict r.1 r.2))
    (Except.ok [])

/-- `deploy_eventhouse` (`workspace_item_utilities.py:1616-1663`):
analogous to `deploy_lakehouse`, again without a ledger. -/
def deploy_eventhouse (runs : List (String × Nat × String × String)) :
    Except String (List (String × String)) :=
  runs.foldl
    (fun acc run =>
      match acc with
      | Except.error e => Except.error e
      | Except.ok dict =>
        match create_eventhouse run.1 run.2.1 (run.2.2.1, run.2.2.2) with
        | Except.error e => Except.error ("Error processing eventhouse: " ++ e)
        | Except.ok r => Except.ok (listSet dict r.1 r.2))
    (Except.ok [])

/-- The notebook loop of `deploy_notebooks`
(`workspace_item_utilities.py:1492-1541`), reduced to its ledger
effect: one `create_notebook` per repository notebook, threading
`guids`. -/
def deploy_notebooks (workspace_id workspace_name : String)
    (existing_items : List (String × WorkspaceItem)) :
    List (String × Nat × String) → List DeploymentRecord →
      Except String (List DeploymentRecord)
  | [], guids => Except.ok guids
  | run :: rest, guids =>
    match create_notebook workspace_id workspace_name run.1 existing_items guids
        run.2.1 run.2.2 with
    | Except.error e => Except.error e
    | Except.ok g2 => deploy_notebooks workspace_id workspace_name existing_items rest g2

/-- The pipeline loop of `deploy_pipelines`
(`workspace_item_utilities.py:1587-1613`), reduced to its ledger
effect: one `create_data_pipeline` per pipeline of the publish order,
threading `guids`. -/
def deploy_pipelines (workspace_id workspace_name : String) :
    List (String × Nat × String) → List DeploymentRecord →
      Except String (List DeploymentRecord)
  | [], guids => Except.ok guids
  | run :: rest, guids =>
    match create_data_pipeline run.1 workspace_id workspace_name guids
        run.2.1 run.2.2 with
    | Except.error e => Except.error e
    | Except.ok g2 => deploy_pipelines workspace_id workspace_name rest g2

/-- ASCII whitespace, as Python's `str.strip` and the regex class
`\s` treat it (space, tab, newline, carriage return, vertical tab,
form feed). -/
def isSpaceC (c : Char) : Bool :=
  c == ' ' || c == '\t' || c == '\n' || c == '\r' || c == '\x0b' || c == '\x0c'

/-- Python `s.strip()`. -/
def stripStr (s : String) : String :=
  String.mk (((s.data.dropWhile isSpaceC).reverse.dropWhile isSpaceC).reverse)

/-- `{item["displayName"]: item["id"] for item in items if
item["type"].strip().lower() == kind}` (`deploy_artifacts`'s
incremental lakehouse/eventhouse dictionaries,
`workspace_item_utilities.py:1811,1823`). -/
def itemDictOfKind (kind : String) (items : List WorkspaceItem) :
    List (String × String) :=
  items.foldl
    (fun m it =>
      if lowerStr (stripStr it.itemType) == kind then listSet m it.displayName it.id
      else m)
    []

/-- The ledger accumulated by `deploy_artifacts`
(`workspace_item_utilities.py:1780-1845`): seeded with one `Workspace`
record, untouched by the lakehouse and eventhouse phases (which do not
receive it), and extended by the notebook and pipeline loops.
`deploy_artifacts` itself drops this value — see `deploy_artifacts`
below. -/
def deploy_artifacts_guids (workspace_id workspace_name : String)
    (is_deployment : Bool) (items : List WorkspaceItem)
    (lakehouse_runs eventhouse_runs : List (String × Nat × String × String))
    (notebook_runs pipeline_runs : List (String × Nat × String)) :
    Except String (List DeploymentRecord) :=
  let existing_items := existingItemsMap items
  let guids := [workspaceRecord workspace_name workspace_id]
  match (if is_deployment then deploy_lakehouse lakehouse_runs
         else Except.ok (itemDictOfKind "lakehouse" items)) with
  | Except.error _ => Except.error "Error during lakehouse deployment."
  | Except.ok _ =>
    match (if is_deployment then deploy_eventhouse eventhouse_runs
           else Except.ok (itemDictOfKind "eventhouse" items)) with
    | Except.error _ => Except.error "Error during eventhouse deployment."
    | Except.ok _ =>
      match deploy_notebooks workspace_id workspace_name existing_items
          notebook_runs guids with
      | Except.error _ =>
        Except.error "Error during notebook/pipeline/environment deployment."
      | Except.ok g1 =>
        match deploy_pipelines workspace_id workspace_name pipeline_runs g1 with
        | Except.error _ =>
          Except.error "Error during notebook/pipeline/environment deployment."
        | Except.ok g2 => Except.ok g2

/-- `deploy_artifacts` returns `None` (`Returns: None`,
`workspace_item_utilities.py:1799-1800`): the accumulated ledger never
leaves the function. -/
def deploy_artifacts (workspace_id workspace_name : String)
    (is_deployment : Bool) (items : List WorkspaceItem)
    (lakehouse_runs eventhouse_runs : List (String × Nat × String × String))
    (notebook_runs pipeline_runs : List (String × Nat × String)) :
    Except String Unit :=
  match deploy_artifacts_guids workspace_id workspace_name is_deployment items
      lakehouse_runs eventhouse_runs notebook_runs pipeline_runs with
  | Except.error e => Except.error e
  | Except.ok _ => Except.ok ()

/-- A successful `create_notebook` call appends exactly one `Notebook`
record to the ledger. -/
theorem create_notebook_append (wsid wsname name : String)
    (ex : List (String × WorkspaceItem)) (g out : List DeploymentRecord)
    (st : Nat) (rid : String)
    (h : create_notebook wsid wsname name ex g st rid = Except.ok out) :
    ∃ r, out = g ++ [r] ∧ r.artifact_type = "Notebook" ∧ r.artifact_name = name := by
  unfold create_notebook at h
  by_cases h200 : st = 200
  · rw [if_pos h200] at h
    cases hg : listGet ex (name ++ ".Notebook") with
    | none => rw [hg] at h; cases h
    | some it =>
      rw [hg] at h
      injection h with h2
      exact ⟨_, h2.symm, rfl, rfl⟩
  · rw [if_neg h200] at h
    by_cases h201 : st = 201 ∨ st = 202
    · rw [if_pos h201] at h
      injection h with h2
      exact ⟨_, h2.symm, rfl, rfl⟩
    · rw [if_neg h201] at h
      cases h

/-- A successful `create_data_pipeline` call appends exactly one
`DataPipeline` record to the ledger. -/
theorem create_data_pipeline_append (pname wsid wsname : String)
    (g out : List DeploymentRecord) (st : Nat) (rid : String)
    (h : create_data_pipeline pname wsid wsname g st rid = Except.ok out) :
    ∃ r, out = g ++ [r] ∧ r.artifact_type = "DataPipeline" ∧ r.artifact_name = pname := by
  unfold create_data_pipeline at h
  by_cases h201 : st = 201 ∨ st = 202
  · rw [if_pos h201] at h
    injection h with h2
    exact ⟨_, h2.symm, rfl, rfl⟩
  · rw [if_neg h201] at h
    cases h

/-- Every record the notebook loop adds is a `Notebook` record. -/
theorem deploy_notebooks_types (wsid wsname : String)
    (ex : List (String × WorkspaceItem)) :
    ∀ (runs : List (String × Nat × String)) (g g2 : List DeploymentRecord),
      deploy_notebooks wsid wsname ex runs g = Except.ok g2 →
      ∀ r ∈ g2, r ∈ g ∨ r.artifact_type = "Notebook" := by
  intro runs
  induction runs with
  | nil =>
    intro g g2 h r hr
    simp only [deploy_notebooks] at h
    injection h with h2
    exact Or.inl (h2 ▸ hr)
  | cons run rest ih =>
    intro g g2 h r hr
    cases hcn : create_notebook wsid wsname run.1 ex g run.2.1 run.2.2 with
    | error e =>
      simp only [deploy_notebooks, hcn] at h
      cases h
    | ok gmid =>
      simp only [deploy_notebooks, hcn] at h
      rcases ih gmid g2 h r hr with hmem | hty
      · obtain ⟨rr, hout, hty, _⟩ := create_notebook_append _ _ _ _ _ _ _ _ hcn
        subst hout
        rcases List.mem_append.mp hmem with h1 | h1
        · exact Or.inl h1
        · right
          rw [List.mem_singleton] at h1
          rw [h1]
          exact hty
      · exact Or.inr hty

/-- Every record the pipeline loop adds is a `DataPipeline` record. -/
theorem deploy_pipelines_types (wsid wsname : String) :
    ∀ (runs : List (String × Nat × String)) (g g2 : List DeploymentRecord),
      deploy_pipelines wsid wsname runs g = Except.ok g2 →
      ∀ r ∈ g2, r ∈ g ∨ r.artifact_type = "DataPipeline" := by
  intro runs
  induction runs with
  | nil =>
    intro g g2 h r hr
    simp only [deploy_pipelines] at h
    injection h with h2
    exact Or.inl (h2 ▸ hr)
  | cons run rest ih =>
    intro g g2 h r hr
    cases hcp : create_data_pipeline run.1 wsid wsname g run.2.1 run.2.2 with
    | error e =>
      simp only [deploy_pipelines, hcp] at h
      cases h
    | ok gmid =>
      simp only [deploy_pipelines, hcp] at h
      rcases ih gmid g2 h r hr with hmem | hty
      · obtain ⟨rr, hout, hty, _⟩ := create_data_pipeline_append _ _ _ _ _ _ _ hcp
        subst hout
        rcases List.mem_append.mp hmem with h1 | h1
        · exact Or.inl h1
        · right
          rw [List.mem_singleton] at h1
          rw [h1]
          exact hty
      · exact Or.inr hty

/-! ### Claim theorems for the ledger -/

/-- C6 counterexample.  A full deployment that creates one lakehouse
(status `201`) and nothing else: the lakehouse is created
(`deploy_lakehouse` succeeds and records it in `lakehouse_dict`), yet
the final ledger holds only the seed `Workspace` record — no
`DeploymentRecord` was appended for the created lakehouse — and
`deploy_artifacts` returns `()` (Python `None`), not the ledger. -/
theorem deploy_ledger_counterexample :
    deploy_lakehouse [("LH", 201, "LH", "lh-id")] = Except.ok [("LH", "lh-id")] ∧
    deploy_artifacts_guids "ws-id" "WS" true [] [("LH", 201, "LH", "lh-id")] [] [] []
      = Except.ok [workspaceRecord "WS" "ws-id"] ∧
    (∀ r ∈ [workspaceRecord "WS" "ws-id"], r.artifact_type ≠ "Lakehouse") ∧
    deploy_artifacts "ws-id" "WS" true [] [("LH", 201, "LH", "lh-id")] [] [] []
      = Except.ok () := by
  refine ⟨rfl, rfl, by decide, rfl⟩

/-- C6 amended: only the notebook and pipeline phases feed the ledger.
Every successful `create_notebook` or `create_data_pipeline` call
appends exactly one record of its kind, and a successful
`deploy_artifacts` run accumulates only `Workspace`, `Notebook` and
`DataPipeline` records — lakehouse and eventhouse creations are never
recorded (those functions do not receive the ledger) — and the
function returns `()` (Python `None`), so the ledger is not returned
to the caller. -/
theorem deploy_ledger_amended
    (wsid wsname nbname pname : String)
    (ex : List (String × WorkspaceItem))
    (g1 g2 out1 out2 : List DeploymentRecord)
    (stN stP : Nat) (ridN ridP : String)
    (is_dep : Bool) (items : List WorkspaceItem)
    (lruns eruns : List (String × Nat × String × String))
    (nruns pruns : List (String × Nat × String))
    (g : List DeploymentRecord)
    (h1 : create_notebook wsid wsname nbname ex g1 stN ridN = Except.ok out1)
    (h2 : create_data_pipeline pname wsid wsname g2 stP ridP = Except.ok out2)
    (h3 : deploy_artifacts_guids wsid wsname is_dep items lruns eruns nruns pruns
        = Except.ok g) :
    (∃ r, out1 = g1 ++ [r] ∧ r.artifact_type = "Notebook" ∧ r.artifact_name = nbname) ∧
    (∃ r, out2 = g2 ++ [r] ∧ r.artifact_type = "DataPipeline" ∧ r.artifact_name = pname) ∧
    (∀ r ∈ g, r.artifact_type = "Workspace" ∨ r.artifact_type = "Notebook"
        ∨ r.artifact_type = "DataPipeline") ∧
    deploy_artifacts wsid wsname is_dep items lruns eruns nruns pruns = Except.ok () := by
  refine ⟨create_notebook_append _ _ _ _ _ _ _ _ h1,
    create_data_pipeline_append _ _ _ _ _ _ _ h2, ?_, ?_⟩
  · intro r hr
    cases hlk : (if is_dep then deploy_lakehouse lruns
        else Except.ok (itemDictOfKind "lakehouse" items)) with
    | error e =>
      simp only [deploy_artifacts_guids, hlk] at h3
      cases h3
    | ok ldict =>
      cases hev : (if is_dep then deploy_eventhouse eruns
          else Except.ok (itemDictOfKind "eventhouse" items)) with
      | error e =>
        simp only [deploy_artifacts_guids, hlk, hev] at h3
        cases h3
      | ok edict =>
        cases hnb : deploy_notebooks wsid wsname (existingItemsMap items) nruns
            [workspaceRecord wsname wsid] with
        | error e =>
          simp only [deploy_artifacts_guids, hlk, hev, hnb] at h3
          cases h3
        | ok gn =>
          cases hpl : deploy_pipelines wsid wsname pruns gn with
          | error e =>
            simp only [deploy_artifacts_guids, hlk, hev, hnb, hpl] at h3
            cases h3
          | ok gp =>
            simp only [deploy_artifacts_guids, hlk, hev, hnb, hpl] at h3
            injection h3 with h4
            subst h4
            rcases deploy_pipelines_types _ _ _ _ _ hpl r hr with hmem | hty
            · rcases deploy_notebooks_types _ _ _ _ _ _ hnb r hmem with hmem2 | hty
              · left
                rw [List.mem_singleton] at hmem2
                rw [hmem2]
                rfl
              · exact Or.inr (Or.inl hty)
            · exact Or.inr (Or.inr hty)
  · unfold deploy_artifacts
    rw [h3]

/-- Witness for the amended C6: one notebook update (`200`), one
pipeline creation (`201`), and a full run creating a lakehouse plus one
new notebook and one pipeline. -/
theorem deploy_ledger_amended_witness :
    (∃ r, [workspaceRecord "W" "w", ⟨"Notebook", "NB", some "w", some "W", "old-id"⟩]
        = [workspaceRecord "W" "w"] ++ [r] ∧
      r.artifact_type = "Notebook" ∧ r.artifact_name = "NB") ∧
    (∃ r, ([] : List DeploymentRecord) ++
        [⟨"DataPipeline", "PL", some "w", some "W", "p-id"⟩] = [] ++ [r] ∧
      r.artifact_type = "DataPipeline" ∧ r.artifact_name = "PL") ∧
    (∀ r ∈ [workspaceRecord "W" "w",
        (⟨"Notebook", "NB2", some "w", some "W", "n2"⟩ : DeploymentRecord),
        ⟨"DataPipeline", "PL", some "w", some "W", "p2"⟩],
      r.artifact_type = "Workspace" ∨ r.artifact_type = "Notebook"
        ∨ r.artifact_type = "DataPipeline") ∧
    deploy_artifacts "w" "W" true []
        [("LH", 201, "LH", "lh-id")] [] [("NB2", 201, "n2")] [("PL", 201, "p2")]
      = Except.ok () :=
  deploy_ledger_amended "w" "W" "NB" "PL"
    [("NB.Notebook", ⟨"NB", "Notebook", "old-id"⟩)]
    [workspaceRecord "W" "w"] [] _ _ 200 201 "ridN" "p-id" true []
    [("LH", 201, "LH", "lh-id")] [] [("NB2", 201, "n2")] [("PL", 201, "p2")]
    [workspaceRecord "W" "w", ⟨"Notebook", "NB2", some "w", some "W", "n2"⟩,
      ⟨"DataPipeline", "PL", some "w", some "W", "p2"⟩]
    rfl rfl rfl

/-! ## Workspace creation and the 409 conflict path -/

/-- `create_workspace_direct_api` (`deployment_main.py:60-112`): `201`
returns the created id, `409` returns `None` (the signal that the
workspace already exists), anything else raises.  The status and the
response content are injected. -/
def create_workspace_direct_api (status : Nat) (created_id error_text : String) :
    Except String (Option String) :=
  if status = 201 then Except.ok (some created_id)
  else if status = 409 then Except.ok none
  else Except.error ("Failed to create workspace: " ++ error_text)

/-- The `raise` of `deployment_main.py:160` / `195`. -/
def notRetrievedMsg (workspace_name : String) : String :=
  "Workspace '" ++ workspace_name ++
    "' exists but could not retrieve details. Please check permissions or try again later."

/-- The shared resolution sequence of `create_workspace_with_fallback`
(`deployment_main.py:141-160` and `174-195`): retrieve the existing
workspace by name (`get_workspace_by_name_with_retry`, outcome
injected as `lookup_result`), then fall back to scanning
`list_all_workspaces` (outcome injected as `listing_result`), and
raise if both miss. -/
def resolveExisting (workspace_name : String)
    (lookup_result listing_result : Option String) : Except String String :=
  match lookup_result with
  | some wid => Except.ok wid
  | none =>
    match listing_result with
    | some wid => Except.ok wid
    | none => Except.error (notRetrievedMsg workspace_name)

/-- The conflict sniffing of the `except` branch
(`deployment_main.py:163-170`): the lowercased error text is searched
for the four conflict markers. -/
def conflictKeyword (e : String) : Bool :=
  subOcc "workspace name already exists".data (lowerStr e).data ||
  subOcc "workspacenamealreadyexists".data (lowerStr e).data ||
  subOcc "409".data (lowerStr e).data ||
  subOcc "conflict".data (lowerStr e).data

/-- `create_workspace_with_fallback` (`deployment_main.py:114-198`).
The `try` body: a created id is returned as is; a `None` (the 409
signal) triggers the resolution sequence.  The `except` branch catches
any raise from the body and re-runs the resolution sequence when the
message carries a conflict marker, re-raising otherwise. -/
def create_workspace_with_fallback (workspace_name : String) (status : Nat)
    (created_id error_text : String)
    (lookup_result listing_result : Option String) : Except String String :=
  let attempt : Except String String :=
    match create_workspace_direct_api status created_id error_text with
    | Except.ok (some wid) => Except.ok wid
    | Except.ok none => resolveExisting workspace_name lookup_result listing_result
    | Except.error e => Except.error e
  match attempt with
  | Except.ok wid => Except.ok wid
  | Except.error e =>
    if conflictKeyword e then resolveExisting workspace_name lookup_result listing_result
    else Except.error e

/-- Which reconciliation the orchestrator runs after the workspace
step: `full` is `is_deployment=True, items={}` (a fresh deployment
with an empty existing-items dictionary), `incremental` is
`delete_old_items` followed by `is_deployment=False` with the listed
items (`deployment_main.py:283-329`). -/
inductive DeployMode
  | full
  | incremental
deriving DecidableEq

/-- STEP 1 and STEP 2 of `orchestrator` (`deployment_main.py:258-303`):
look the workspace up by name, then in the full listing; a hit takes
the incremental path.  Only a double miss calls
`create_workspace_with_fallback`, and that branch always proceeds to
the FULL deployment (`is_deployment = True`, `items={}`),
whatever the fallback resolved. -/
def orchestrator_workspace_step (step1_lookup step1_listing : Option String)
    (workspace_name : String) (status : Nat) (created_id error_text : String)
    (conflict_lookup conflict_listing : Option String) :
    Except String (String × DeployMode) :=
  match step1_lookup with
  | some wid => Except.ok (wid, DeployMode.incremental)
  | none =>
    match step1_listing with
    | some wid => Except.ok (wid, DeployMode.incremental)
    | none =>
      match create_workspace_with_fallback workspace_name status created_id error_text
          conflict_lookup conflict_listing with
      | Except.ok wid => Except.ok (wid, DeployMode.full)
      | Except.error e => Except.error e

/-! ### Claim theorems for the conflict path -/

/-- C7 counterexample.  A concurrent run creates the workspace between
the orchestrator's STEP-1 lookups (both miss) and the create call, so
the create returns `409`.  The fallback resolves the conflict to the
existing workspace's id without raising — but the orchestrator then
proceeds to the FULL deployment (`DeployMode.full`:
`is_deployment=True` with `items={}`), not to incremental
reconciliation. -/
theorem workspace_conflict_counterexample :
    create_workspace_with_fallback "X" 409 "" "" (some "existing-id") none
      = Except.ok "existing-id" ∧
    orchestrator_workspace_step none none "X" 409 "" "" (some "existing-id") none
      = Except.ok ("existing-id", DeployMode.full) ∧
    DeployMode.full ≠ DeployMode.incremental := by
  refine ⟨rfl, rfl, by decide⟩

/-- C7 amended: a `409` conflict whose follow-up lookup finds the
existing workspace resolves to that workspace's id without raising,
but the orchestrator's create branch then performs the FULL deployment
(`is_deployment=True`, `items={}`), not incremental reconciliation —
the incremental path is taken only when the STEP-1 lookups themselves
find the workspace. -/
theorem workspace_conflict_resolution (workspace_name created_id error_text X : String)
    (listing : Option String) :
    create_workspace_with_fallback workspace_name 409 created_id error_text
        (some X) listing = Except.ok X ∧
    orchestrator_workspace_step none none workspace_name 409 created_id error_text
        (some X) listing = Except.ok (X, DeployMode.full) := by
  exact ⟨rfl, rfl⟩

/-! ## Second-pass reconciliation as an operation trace -/

/-- The Fabric item operations a reconciliation pass issues: the item
DELETE calls of `delete_old_items` and `clean_deleted_item`, the
create POST of `create_notebook`/`create_data_pipeline`, and the
`updateDefinition` POST of `create_notebook`'s update branch. -/
inductive FabricOp
  | deleteOp (name : String)
  | createOp (itemType name : String)
  | updateOp (itemType name : String)
deriving DecidableEq

/-- The operations `create_notebook` issues
(`workspace_item_utilities.py:581-588`): an `updateDefinition` POST
when `f"{name}.Notebook"` is a key of `existing_items`, a create POST
otherwise. -/
def create_notebook_ops (existing : List (String × WorkspaceItem)) (name : String) :
    List FabricOp :=
  if listHas existing (name ++ ".Notebook") then [FabricOp.updateOp "Notebook" name]
  else [FabricOp.createOp "Notebook" name]

/-- The operations `create_data_pipeline` issues
(`workspace_item_utilities.py:1192-1212`): always a create POST — the
function never consults the existing items. -/
def create_data_pipeline_ops (name : String) : List FabricOp :=
  [FabricOp.createOp "DataPipeline" name]

/-- The deletions of `clean_deleted_item`
(`workspace_item_utilities.py:1407-1467`): every existing `Notebook`
item whose display name no longer has a repository notebook. -/
def cleanOps (items : List WorkspaceItem) (repoNotebooks : List String) :
    List FabricOp :=
  (((existingItemsMap items).map Prod.snd).filter
    (fun it => it.itemType == "Notebook" && !(repoNotebooks.contains it.displayName))).map
    (fun it => FabricOp.deleteOp it.displayName)

/-- The operation trace of the orchestrator's incremental branch
(`deployment_main.py:305-329` calling `delete_old_items` and then
`deploy_artifacts` with `is_deployment=False`): the Environment and
pipeline deletions of `delete_old_items`, the stale-notebook
deletions of `clean_deleted_item`, one `create_notebook` per
repository notebook against the `f"{displayName}.{type}"`-keyed
existing items, and one `create_data_pipeline` per pipeline of the
publish order. -/
def incremental_pass_ops (items : List WorkspaceItem)
    (repoPipes : List (String × List String)) (repoNotebooks : List String) :
    Except String (List FabricOp) :=
  match delete_old_items items repoPipes with
  | Except.error e => Except.error e
  | Except.ok del =>
    match sort_datapipelines repoPipes LookupType.Repository with
    | Except.error e => Except.error e
    | Except.ok publish_order =>
      Except.ok (del.1.map FabricOp.deleteOp ++ del.2.map FabricOp.deleteOp
        ++ cleanOps items repoNotebooks
        ++ repoNotebooks.flatMap (create_notebook_ops (existingItemsMap items))
        ++ publish_order.flatMap create_data_pipeline_ops)

/-! ### Claim theorems for second-pass idempotence -/

/-- C9 counterexample.  After a first pass the workspace holds pipeline
`P` and notebook `N`, both matching the unchanged repository by kind
and display name.  The second pass updates the notebook (no duplicate
create), but it deletes pipeline `P` and then issues a CREATE for it —
`create_data_pipeline` never updates or skips — so an item already
present and matched by kind+displayName is created a second time. -/
theorem second_pass_counterexample :
    incremental_pass_ops
        [⟨"P", "DataPipeline", "pid"⟩, ⟨"N", "Notebook", "nid"⟩] [("P", [])] ["N"]
      = Except.ok [FabricOp.deleteOp "P", FabricOp.updateOp "Notebook" "N",
          FabricOp.createOp "DataPipeline" "P"] ∧
    (⟨"P", "DataPipeline", "pid"⟩ : WorkspaceItem)
        ∈ [(⟨"P", "DataPipeline", "pid"⟩ : WorkspaceItem), ⟨"N", "Notebook", "nid"⟩] ∧
    FabricOp.createOp "DataPipeline" "P"
        ∈ [FabricOp.deleteOp "P", FabricOp.updateOp "Notebook" "N",
            FabricOp.createOp "DataPipeline" "P"] := by
  refine ⟨rfl, by decide, by decide⟩

theorem flatMap_pipe_mem {l : List String} {p : String} (hp : p ∈ l) :
    FabricOp.createOp "DataPipeline" p ∈ l.flatMap create_data_pipeline_ops := by
  rw [List.mem_flatMap]
  exact ⟨p, hp, by simp [create_data_pipeline_ops]⟩

theorem flatMap_nb_mem {ex : List (String × WorkspaceItem)} {l : List String}
    {n : String} (hn : n ∈ l) (hhas : listHas ex (n ++ ".Notebook") = true) :
    FabricOp.updateOp "Notebook" n ∈ l.flatMap (create_notebook_ops ex) := by
  rw [List.mem_flatMap]
  refine ⟨n, hn, ?_⟩
  simp [create_notebook_ops, hhas]

theorem create_op_shape {ex : List (String × WorkspaceItem)} {l : List String}
    {ty n : String} (h : FabricOp.createOp ty n ∈ l.flatMap (create_notebook_ops ex)) :
    ty = "Notebook" ∧ n ∈ l ∧ listHas ex (n ++ ".Notebook") = false := by
  rw [List.mem_flatMap] at h
  obtain ⟨m, hm, hop⟩ := h
  by_cases hh : listHas ex (m ++ ".Notebook") = true
  · simp [create_notebook_ops, hh] at hop
  · rw [create_notebook_ops, if_neg hh, List.mem_singleton] at hop
    injection hop with hty hnm
    subst hty
    subst hnm
    exact ⟨rfl, hm, Bool.not_eq_true _ ▸ hh⟩

/-- C9 amended: the second pass is idempotent for notebooks — a
repository notebook matched by kind+displayName among the existing
items is updated, never created — but not for data pipelines: every
pipeline of the (closed, duplicate-free, acyclic) repository catalog
is issued a CREATE on every pass, even when a matching workspace item
exists; it is first deleted by `delete_old_items` and then created
anew. -/
theorem second_pass_amended (items : List WorkspaceItem)
    (repoPipes : List (String × List String)) (repoNotebooks : List String)
    (trace : List FabricOp)
    (hnd : (pipeKeys repoPipes).Nodup) (hcl : closedRefs repoPipes = true)
    (hac : Acyclic repoPipes)
    (h : incremental_pass_ops items repoPipes repoNotebooks = Except.ok trace) :
    (∀ n ∈ repoNotebooks, listHas (existingItemsMap items) (n ++ ".Notebook") = true →
      FabricOp.updateOp "Notebook" n ∈ trace ∧
      FabricOp.createOp "Notebook" n ∉ trace) ∧
    (∀ p ∈ pipeKeys repoPipes, FabricOp.createOp "DataPipeline" p ∈ trace) := by
  obtain ⟨s, hs, hperm, _⟩ := sort_repository_spec repoPipes hnd hcl hac
  have hdel : delete_old_items items repoPipes
      = Except.ok ((items.filter
          (fun it => lowerStr it.itemType == "environment")).map (fun it => it.displayName),
        (s.reverse.filter (isDeployedPipeline items))) := by
    rw [delete_old_items, hs]
  rw [incremental_pass_ops, hdel, hs] at h
  injection h with h2
  subst h2
  constructor
  · intro n hn hhas
    constructor
    · refine List.mem_append.mpr (Or.inl ?_)
      refine List.mem_append.mpr (Or.inr ?_)
      exact flatMap_nb_mem hn hhas
    · intro hmem
      rcases List.mem_append.mp hmem with hmem1 | hpl
      · rcases List.mem_append.mp hmem1 with hmem2 | hnb
        · rcases List.mem_append.mp hmem2 with hmem3 | hcln
          · rcases List.mem_append.mp hmem3 with henv | hpd
            · rw [List.mem_map] at henv
              obtain ⟨x, _, hx⟩ := henv
              cases hx
            · rw [List.mem_map] at hpd
              obtain ⟨x, _, hx⟩ := hpd
              cases hx
          · rw [cleanOps, List.mem_map] at hcln
            obtain ⟨x, _, hx⟩ := hcln
            cases hx
        · obtain ⟨_, _, hfalse⟩ := create_op_shape hnb
          rw [hhas] at hfalse
          cases hfalse
      · rw [List.mem_flatMap] at hpl
        obtain ⟨m, _, hop⟩ := hpl
        rw [create_data_pipeline_ops, List.mem_singleton] at hop
        injection hop with hty _
        exact absurd hty (by decide)
  · intro p hp
    refine List.mem_append.mpr (Or.inr ?_)
    exact flatMap_pipe_mem ((hperm.mem_iff).mpr hp)

/-- Witness for the amended C9: deployed `{Child, Parent, NB}` with an
unchanged repository; the notebook is updated while both pipelines are
re-created. -/
theorem second_pass_amended_witness :
    (FabricOp.updateOp "Notebook" "NB" ∈
        [FabricOp.deleteOp "Child", FabricOp.updateOp "Notebook" "NB",
          FabricOp.createOp "DataPipeline" "Child",
          FabricOp.createOp "DataPipeline" "Parent"] ∧
      FabricOp.createOp "Notebook" "NB" ∉
        [FabricOp.deleteOp "Child", FabricOp.updateOp "Notebook" "NB",
          FabricOp.createOp "DataPipeline" "Child",
          FabricOp.createOp "DataPipeline" "Parent"]) ∧
    FabricOp.createOp "DataPipeline" "Parent" ∈
        [FabricOp.deleteOp "Child", FabricOp.updateOp "Notebook" "NB",
          FabricOp.createOp "DataPipeline" "Child",
          FabricOp.createOp "DataPipeline" "Parent"] := by
  have h := second_pass_amended
    [⟨"Child", "DataPipeline", "c1"⟩, ⟨"NB", "Notebook", "n1"⟩]
    [("Child", []), ("Parent", ["Child"])] ["NB"]
    [FabricOp.deleteOp "Child", FabricOp.updateOp "Notebook" "NB",
      FabricOp.createOp "DataPipeline" "Child",
      FabricOp.createOp "DataPipeline" "Parent"]
    (by decide) (by decide)
    ⟨fun x => if x = "Child" then 0 else 1, by
      intro r t hrt
      rw [refsOf, listGet_cons, listGet_cons] at hrt
      by_cases h1 : t = "Child"
      · rw [if_pos (by simp [h1])] at hrt
        simp at hrt
      · rw [if_neg (by simp; exact fun hc => h1 hc.symm)] at hrt
        by_cases h2 : t = "Parent"
        · rw [if_pos (by simp [h2])] at hrt
          simp only [Option.getD_some, List.mem_singleton] at hrt
          subst hrt
          subst h2
          decide
        · rw [if_neg (by simp; exact fun hc => h2 hc.symm)] at hrt
          simp at hrt⟩
    rfl
  exact ⟨h.1 "NB" (by decide) (by decide), h.2 "Parent" (by decide)⟩

/-! ## Notebook content rewriting (`update_notebook_content`) -/

/-- The literal prefix of the attachment search regex
`"default_lakehouse_name": "(.*?)"`
(`workspace_item_utilities.py:224`). -/
def nameFieldPat : List Char := "\"default_lakehouse_name\": \"".data

/-- The capture `(.*?)"`: the shortest run of non-newline characters up
to a closing quote (`.` does not match a newline, so a match must
close before the end of the line). -/
def captureUntilQuote : List Char → Option (List Char)
  | [] => none
  | c :: rest =>
    if c == '"' then some []
    else if c == '\n' then none
    else
      match captureUntilQuote rest with
      | some cap => some (c :: cap)
      | none => none

/-- `re.search(r'"default_lakehouse_name": "(.*?)"', s)`: the capture
of the leftmost match, scanning every start position. -/
def searchNameField : List Char → Option (List Char)
  | [] => none
  | c :: rest =>
    if pref nameFieldPat (c :: rest) then
      match captureUntilQuote ((c :: rest).drop nameFieldPat.length) with
      | some cap => some cap
      | none => searchNameField rest
    else searchNameField rest

def startsWithColon : List Char → Bool
  | c :: _ => c == ':'
  | [] => false

/-- Does `"default_lakehouse"\s*:` match at the head of `s`? -/
def fieldColonAt (lit s : List Char) : Bool :=
  pref lit s && startsWithColon ((s.drop lit.length).dropWhile isSpaceC)

def dlQuoted : List Char := "\"default_lakehouse\"".data

/-- `re.search(r'"default_lakehouse"\s*:', s)` as a Boolean
(`workspace_item_utilities.py:248`). -/
def hasLakehouseField : List Char → Bool
  | [] => false
  | c :: rest => fieldColonAt dlQuoted (c :: rest) || hasLakehouseField rest

def metaLit : List Char := "# META".data

def dlnQuoted : List Char := "\"default_lakehouse_name\"".data

/-- The length of a match of `(# META\s+"default_lakehouse_name")` at
the head of `s` (`\s+` must take all the whitespace, since the literal
that follows starts with a non-whitespace character). -/
def metaMatchLen (s : List Char) : Option Nat :=
  if pref metaLit s then
    let t := s.drop metaLit.length
    let w := (t.takeWhile isSpaceC).length
    if 0 < w ∧ pref dlnQuoted (t.drop w) then
      some (metaLit.length + w + dlnQuoted.length)
    else none
  else none

/-- The inserted text `# META       "default_lakehouse": "{id}",\n`
that the `count=1` substitution of `workspace_item_utilities.py:250-255`
places before the matched group. -/
def metaIns (lakehouse_id : List Char) : List Char :=
  "# META       \"default_lakehouse\": \"".data ++ lakehouse_id ++ "\",\n".data

/-- `re.sub(r'(# META\s+"default_lakehouse_name")', rf'...\n\1', s,
count=1)`: the replacement prefixes the matched group (which is the
whole match), so the first match point gains `ins` in front and the
rest of the text is kept as is. -/
def subMeta1 (ins : List Char) : List Char → List Char
  | [] => []
  | c :: rest =>
    match metaMatchLen (c :: rest) with
    | some _ => ins ++ c :: rest
    | none => c :: subMeta1 ins rest

def nullLit : List Char := "null".data

/-- Characters before the next `"` (the regex `[^"]*"` forces the first
closing quote). -/
def toQuote : List Char → Option Nat
  | [] => none
  | c :: rest => if c == '"' then some 0 else (toQuote rest).map (· + 1)

/-- The length of a match of `("[^"]*"|null)` at the head of `s`. -/
def valueLen (s : List Char) : Option Nat :=
  match s with
  | [] => none
  | c :: rest =>
    if c == '"' then
      match toQuote rest with
      | some k => some (k + 2)
      | none => none
    else if pref nullLit s then some 4
    else none

/-- `re.sub(lit ++ ("[^"]*"|null), repl, s)`: the left-to-right
non-overlapping global substitution, with a skip counter for the
consumed match. -/
def subFieldGo (lit repl : List Char) : Nat → List Char → List Char
  | _, [] => []
  | n + 1, _ :: rest => subFieldGo lit repl n rest
  | 0, c :: rest =>
    if pref lit (c :: rest) then
      match valueLen ((c :: rest).drop lit.length) with
      | some v => repl ++ subFieldGo lit repl (lit.length + v - 1) rest
      | none => c :: subFieldGo lit repl 0 rest
    else c :: subFieldGo lit repl 0 rest

def subField (lit repl s : List Char) : List Char := subFieldGo lit repl 0 s

def dlFieldLit : List Char := "\"default_lakehouse\": ".data

def dlnFieldLit : List Char := "\"default_lakehouse_name\": ".data

def dlwFieldLit : List Char := "\"default_lakehouse_workspace_id\": ".data

/-- A quoted value, as the f-string replacements build it. -/
def quotedVal (v : List Char) : List Char := '"' :: (v ++ ['"'])

def knownLit : List Char := "\"known_lakehouses\"".data

/-- Characters up to and including the next `]` (the regex `[^\]]*\]`
forces the first closing bracket). -/
def toClose : List Char → Option Nat
  | [] => none
  | c :: rest => if c == ']' then some 1 else (toClose rest).map (· + 1)

def startsWithLBracket : List Char → Bool
  | c :: _ => c == '['
  | [] => false

/-- The length of a match of
`"known_lakehouses"\s*:\s*\[[^\]]*\]` at the head of `s`. -/
def knownMatchLen (s : List Char) : Option Nat :=
  if pref knownLit s then
    let t1 := s.drop knownLit.length
    let w1 := (t1.takeWhile isSpaceC).length
    if startsWithColon (t1.drop w1) then
      let t2 := (t1.drop w1).drop 1
      let w2 := (t2.takeWhile isSpaceC).length
      if startsWithLBracket (t2.drop w2) then
        match toClose ((t2.drop w2).drop 1) with
        | some m => some (knownLit.length + w1 + 1 + w2 + 1 + m)
        | none => none
      else none
    else none
  else none

/-- The replacement `"known_lakehouses": [\x7b"id": "{id}"\x7d]`
(`workspace_item_utilities.py:262-263`). -/
def knownRepl (lakehouse_id : List Char) : List Char :=
  "\"known_lakehouses\": [\x7b\"id\": \"".data ++ lakehouse_id ++ "\"\x7d]".data

/-- The global substitution on the `known_lakehouses` array. -/
def subKnownGo (repl : List Char) : Nat → List Char → List Char
  | _, [] => []
  | n + 1, _ :: rest => subKnownGo repl n rest
  | 0, c :: rest =>
    match knownMatchLen (c :: rest) with
    | some m => repl ++ subKnownGo repl (m - 1) rest
    | none => c :: subKnownGo repl 0 rest

/-- Python's f-string rendering of a `dict.get` miss: `None`. -/
def optIdStr (o : Option (List Char)) : List Char :=
  match o with
  | some v => v
  | none => "None".data

/-- The `current_lakehouse_name` selection of `update_notebook_content`
(`workspace_item_utilities.py:219-238`): the captured attachment name
(or `""`), force-switched to `"Bronze"` when the name is empty or
unknown to `lakehouse_dict` AND the target folder is an ingestion or
non-security layer. -/
def chosenName (content : List Char) (lakehouse_dict : List (List Char × List Char))
    (target_folder : List Char) : List Char :=
  let current0 :=
    match searchNameField content with
    | some cap => cap
    | none => []
  if (current0.isEmpty || !(listHas lakehouse_dict current0)) &&
      (subOcc "Data_Ingestion".data target_folder ||
        subOcc "Data_Non_Security".data target_folder)
  then "Bronze".data else current0

/-- The rewrite chain of `update_notebook_content`'s nonempty-name
branch (`workspace_item_utilities.py:242-263`): resolve the id from
`lakehouse_dict` (a miss prints as `None`), insert a
`default_lakehouse` line if the field is absent, then rewrite the
`default_lakehouse`, `default_lakehouse_name`,
`default_lakehouse_workspace_id` and `known_lakehouses` fields. -/
def rewriteWith (content : List Char) (lakehouse_dict : List (List Char × List Char))
    (workspace_id name : List Char) : List Char :=
  let lakehouse_id := optIdStr (listGet lakehouse_dict name)
  let s1 := if hasLakehouseField content then content
    else subMeta1 (metaIns lakehouse_id) content
  let s2 := subField dlFieldLit (dlFieldLit ++ quotedVal lakehouse_id) s1
  let s3 := subField dlnFieldLit (dlnFieldLit ++ quotedVal name) s2
  let s4 := subField dlwFieldLit (dlwFieldLit ++ quotedVal workspace_id) s3
  subKnownGo (knownRepl lakehouse_id) 0 s4

/-- `update_notebook_content` (`workspace_item_utilities.py:206-266`):
pick the attachment name, rewrite when it is nonempty, return the
content untouched otherwise. -/
def update_notebook_content (content : List Char)
    (lakehouse_dict : List (List Char × List Char))
    (workspace_id target_folder : List Char) : List Char :=
  let name := chosenName content lakehouse_dict target_folder
  if name.isEmpty then content else rewriteWith content lakehouse_dict workspace_id name

/-- If the literal head of the attachment regex occurs nowhere in the
text, the search misses. -/
theorem searchNameField_none (s : List Char) (h : subOcc nameFieldPat s = false) :
    searchNameField s = none := by
  induction s with
  | nil => rfl
  | cons c rest ih =>
    obtain ⟨h1, h2⟩ := subOcc_cons_false h
    rw [show searchNameField (c :: rest)
      = (if pref nameFieldPat (c :: rest) = true then
          match captureUntilQuote ((c :: rest).drop nameFieldPat.length) with
          | some cap => some cap
          | none => searchNameField rest
        else searchNameField rest) from rfl]
    rw [if_neg (by simp [h1]), ih h2]

/-! ### Claim theorems for notebook content rewriting -/

/-- C10: with no `default_lakehouse_name` field in the content and a
target folder that is neither an ingestion nor a non-security layer,
`update_notebook_content` returns its input unchanged, for every
lakehouse dictionary and workspace id. -/
theorem update_notebook_frame (content : List Char)
    (lakehouse_dict : List (List Char × List Char))
    (workspace_id target_folder : List Char)
    (hname : subOcc nameFieldPat content = false)
    (hing : subOcc "Data_Ingestion".data target_folder = false)
    (hnonsec : subOcc "Data_Non_Security".data target_folder = false) :
    update_notebook_content content lakehouse_dict workspace_id target_folder
      = content := by
  have hsearch := searchNameField_none content hname
  simp [update_notebook_content, chosenName, hsearch, hing, hnonsec]

/-- Witness for C10: plain code with no attachment metadata in an
`Operations` folder passes through unchanged. -/
theorem update_notebook_frame_witness :
    update_notebook_content "print(1)".data [("Bronze".data, "b-id".data)]
        "w".data "ARM/Operations".data = "print(1)".data :=
  update_notebook_frame _ _ _ _ (by decide) (by decide) (by decide)

/-- C8 counterexample.  A notebook whose attachment is nonempty and
known to the catalog (`Silver`), in a folder where no force-attach rule
applies: the claim says such metadata is not overwritten, yet the code
rewrites the `default_lakehouse` id from the catalog (`old-id` becomes
`new-id`), so the output differs from the input. -/
theorem update_notebook_counterexample :
    update_notebook_content
        "# META   \"default_lakehouse\": \"old-id\",\n# META   \"default_lakehouse_name\": \"Silver\"".data
        [("Silver".data, "new-id".data), ("Bronze".data, "b-id".data)]
        "w".data "ARM/Operations".data
      = "# META   \"default_lakehouse\": \"new-id\",\n# META   \"default_lakehouse_name\": \"Silver\"".data ∧
    "# META   \"default_lakehouse\": \"new-id\",\n# META   \"default_lakehouse_name\": \"Silver\"".data
      ≠ "# META   \"default_lakehouse\": \"old-id\",\n# META   \"default_lakehouse_name\": \"Silver\"".data ∧
    searchNameField
        "# META   \"default_lakehouse\": \"old-id\",\n# META   \"default_lakehouse_name\": \"Silver\"".data
      = some "Silver".data ∧
    listHas [("Silver".data, "new-id".data), ("Bronze".data, "b-id".data)]
        "Silver".data = true ∧
    subOcc "Data_Ingestion".data "ARM/Operations".data = false ∧
    subOcc "Data_Non_Security".data "ARM/Operations".data = false := by
  refine ⟨rfl, by decide, rfl, rfl, by decide, by decide⟩

/-- C8 amended: whenever the content's attachment name is nonempty and
known to the lakehouse catalog, the chosen name is that attachment —
the Bronze force-attach never fires, not even for ingestion or
non-security folders — and the content is nevertheless rewritten
through the full chain (ids refreshed from the catalog), rather than
left unchanged.  The force-attach to Bronze fires only when the
attachment is empty or unknown AND the folder is an ingestion or
non-security layer. -/
theorem update_notebook_attachment (content : List Char)
    (lakehouse_dict : List (List Char × List Char))
    (workspace_id target_folder nm : List Char)
    (hfound : searchNameField content = some nm)
    (hne : nm ≠ [])
    (hknown : listHas lakehouse_dict nm = true) :
    chosenName content lakehouse_dict target_folder = nm ∧
    update_notebook_content content lakehouse_dict workspace_id target_folder
      = rewriteWith content lakehouse_dict workspace_id nm := by
  have hie : nm.isEmpty = false := by
    cases nm with
    | nil => exact absurd rfl hne
    | cons a l => rfl
  have hcn : chosenName content lakehouse_dict target_folder = nm := by
    simp [chosenName, hfound, hie, hknown]
  refine ⟨hcn, ?_⟩
  simp [update_notebook_content, hcn, hie]

/-- Witness for the amended C8: the known `Silver` attachment in an
ingestion folder is kept (no Bronze forcing) and the content is
rewritten. -/
theorem update_notebook_attachment_witness :
    chosenName
        "# META   \"default_lakehouse\": \"old-id\",\n# META   \"default_lakehouse_name\": \"Silver\"".data
        [("Silver".data, "new-id".data), ("Bronze".data, "b-id".data)]
        "ARM/Data_Ingestion".data
      = "Silver".data ∧
    update_notebook_content
        "# META   \"default_lakehouse\": \"old-id\",\n# META   \"default_lakehouse_name\": \"Silver\"".data
        [("Silver".data, "new-id".data), ("Bronze".data, "b-id".data)]
        "w".data "ARM/Data_Ingestion".data
      = rewriteWith
        "# META   \"default_lakehouse\": \"old-id\",\n# META   \"default_lakehouse_name\": \"Silver\"".data
        [("Silver".data, "new-id".data), ("Bronze".data, "b-id".data)]
        "w".data "Silver".data :=
  update_notebook_attachment _ _ _ _ _ rfl (by decide) (by decide)

end Spec2Proof
